import Mathlib

/-!
Shallow embedding of the voxel-automata diffusion core
(`src/rust/src/automaton/field.rs`, `src/rust/src/automaton/incremental.rs`,
`src/rust/src/ffi/field.rs`, `src/rust/src/ffi/incremental.rs`).

Cell values are `u32` quanta modelled as `Nat` together with the explicit
wrapping cast `wrap32` (reduction modulo `2^32`) at every point where the
Rust code performs an `as u32` cast of a signed 64-bit intermediate.
Signed 64-bit arithmetic is modelled as `Int` with Rust's truncating
division (`Int.tdiv` / `Int.tmod`).  The divisor `(7i64 << shift) << 16`
is modelled with an explicit i64 value-wrap (`shl64`), because Rust's
shift silently drops high bits: the divisor is the exact
`7 * 2^rate * 65536` only for `diffusion_rate ≤ 44`, is negative for
rates 45–47, and is 0 for rates 48–63 — where the Rust division panics,
which this total model does not capture, so every theorem that needs the
real divisor behavior carries a `diffusion_rate ≤ 44` bound (beyond 44
the accumulator subtraction can also overflow i64, a debug-build panic).
For rates ≥ 64 the Rust shift amount itself overflows (panic in debug
builds, masked in release); the model keeps the value-wrap semantics
there.  Within rate ≤ 44 every intermediate quantity reachable from
`u32` cells stays far below `2^63`, so the unbounded model is faithful.
Dimensions are modelled as `Nat` (the claims under study quantify over
dimensions `≥ 1`); the `i16` coordinates of the cell accessors are
modelled as `Int` with the same bounds checks as the source.
The elapsed-time deadline inside `StepController::tick` is abstracted by
the number `k ≥ 1` of tiles the budget admits before the deadline check
fires; the Rust loop checks the deadline only after fully processing a
tile, so every real execution corresponds to some such `k`.
The out-of-range indexing `tile_queue[tile_idx]` (a Rust panic, reachable
because tile counts are cast to `u8` in `begin_step`) is modelled by
`Option`: `none` is the panic.
-/

namespace VoxelAutomata

/-- Wrapping cast of a signed 64-bit intermediate to `u32`: the low 32 bits,
i.e. reduction modulo `2^32` into `[0, 2^32)` (Rust `as u32`). -/
def wrap32 (x : Int) : Nat := (x % 4294967296).toNat

/-- Reduce an integer into the i64 range `[-2^63, 2^63)` (two's-complement
wrap-around). -/
def wrap64 (x : Int) : Int :=
  (x + 9223372036854775808) % 18446744073709551616 - 9223372036854775808

/-- The i64 shift-left `x << n`: multiplication by `2^n` with the silent
two's-complement value wrap of Rust's `shl` (high bits dropped). -/
def shl64 (x : Int) (n : Nat) : Int := wrap64 (x * 2 ^ n)

/-- The `Field` struct of `automaton/field.rs`: a dense 3-D array of `u32`
cells with generation counter, diffusion-rate exponent and conductivity. -/
structure Field where
  width : Nat
  height : Nat
  depth : Nat
  cells : List Nat
  generation : Nat
  diffusionRate : Nat
  conductivity : Nat
deriving DecidableEq

/-- `create_field`: zero-filled cells, generation 0, conductivity 65535. -/
def create_field (width height depth diffusionRate : Nat) : Field :=
  { width, height, depth
    cells := List.replicate (width * height * depth) 0
    generation := 0
    diffusionRate
    conductivity := 65535 }

/-- `field_index_of`: linear index `z*h*w + y*w + x` (x fastest, z slowest). -/
def field_index_of (w h : Nat) (x y z : Nat) : Nat :=
  z * h * w + y * w + x

/-- `field_in_bounds` on signed coordinates. -/
def field_in_bounds (f : Field) (x y z : Int) : Bool :=
  0 ≤ x && x < (f.width : Int) && 0 ≤ y && y < (f.height : Int)
    && 0 ≤ z && z < (f.depth : Int)

/-- `field_set`: write if in bounds, silently discard otherwise. -/
def field_set (f : Field) (x y z : Int) (v : Nat) : Field :=
  if field_in_bounds f x y z then
    { f with cells :=
        f.cells.set (field_index_of f.width f.height x.toNat y.toNat z.toNat) v }
  else f

/-- `field_get`: read if in bounds, 0 otherwise. -/
def field_get (f : Field) (x y z : Int) : Nat :=
  if field_in_bounds f x y z then
    f.cells.getD (field_index_of f.width f.height x.toNat y.toNat z.toNat) 0
  else 0

/-- `compute_flow` (identical in `field.rs` and `incremental.rs`): truncating
quotient of `gradient * conductivity` by `divisor`, with a remainder
accumulator that emits a ±1 dither tick when it reaches the divisor.
Returns the flow and the updated accumulator. -/
def compute_flow (gradient conductivity divisor acc : Int) : Int × Int :=
  let product := gradient * conductivity
  let flow_truncated := product.tdiv divisor
  let remainder := product.tmod divisor
  let acc1 := acc + |remainder|
  if divisor ≤ acc1 then
    (if 0 ≤ gradient then flow_truncated + 1 else flow_truncated - 1, acc1 - divisor)
  else
    (flow_truncated, acc1)

/-- One adjacent-pair update of the stepping kernels: gradient is read from
the frozen `src`, the flow is applied to both endpoints of the working
buffer with the wrapping `as u32` casts of the source. -/
def applyPair (src : List Nat) (conductivity divisor : Int)
    (st : List Nat × Int) (p : Nat × Nat) : List Nat × Int :=
  let gradient : Int := (src.getD p.1 0 : Int) - (src.getD p.2 0 : Int)
  let fa := compute_flow gradient conductivity divisor st.2
  let c1 := st.1.set p.1 (wrap32 ((st.1.getD p.1 0 : Int) - fa.1))
  let c2 := c1.set p.2 (wrap32 ((c1.getD p.2 0 : Int) + fa.1))
  (c2, fa.2)

/-- X-axis pair list of `field_step` / `field_step_fused`, in loop order
(z outer, then y, then x over `0..w-1`). -/
def xPairs (w h d : Nat) : List (Nat × Nat) :=
  (List.range d).flatMap fun z =>
    (List.range h).flatMap fun y =>
      (List.range (w - 1)).map fun x =>
        (field_index_of w h x y z, field_index_of w h (x + 1) y z)

/-- Y-axis pair list, in loop order. -/
def yPairs (w h d : Nat) : List (Nat × Nat) :=
  (List.range d).flatMap fun z =>
    (List.range (h - 1)).flatMap fun y =>
      (List.range w).map fun x =>
        (field_index_of w h x y z, field_index_of w h x (y + 1) z)

/-- Z-axis pair list, in loop order. -/
def zPairs (w h d : Nat) : List (Nat × Nat) :=
  (List.range (d - 1)).flatMap fun z =>
    (List.range h).flatMap fun y =>
      (List.range w).map fun x =>
        (field_index_of w h x y z, field_index_of w h x y (z + 1))

/-- `field_step` (sequential stepper): X pairs read the pre-step cells, the
result is copied back, Y pairs read that copy, copy back again, then Z
pairs; one remainder accumulator spans all three axes; generation `+1`.
The divisor is the source's `(7i64 << shift) << 16`, which silently wraps
in i64: it equals `7 * 2^rate * 65536` only for rate `≤ 44`, is negative
for rates 45–47 and 0 for rates 48–63 (where the Rust division panics). -/
def field_step (f : Field) : Field :=
  let divisor : Int := shl64 (shl64 7 f.diffusionRate) 16
  let cond : Int := f.conductivity
  let s1 := (xPairs f.width f.height f.depth).foldl
    (applyPair f.cells cond divisor) (f.cells, 0)
  let s2 := (yPairs f.width f.height f.depth).foldl
    (applyPair s1.1 cond divisor) (s1.1, s1.2)
  let s3 := (zPairs f.width f.height f.depth).foldl
    (applyPair s2.1 cond divisor) (s2.1, s2.2)
  { f with cells := s3.1, generation := f.generation + 1 }

/-- `field_step_fused` (fused stepper): all three axis passes read gradients
from the same frozen snapshot of the cells and accumulate into one target
buffer; one remainder accumulator spans the whole step; generation `+1`.
The divisor is the wrapping `(7i64 << shift) << 16` of the source. -/
def field_step_fused (f : Field) : Field :=
  let divisor : Int := shl64 (shl64 7 f.diffusionRate) 16
  let cond : Int := f.conductivity
  let pairs := xPairs f.width f.height f.depth ++ yPairs f.width f.height f.depth
    ++ zPairs f.width f.height f.depth
  let s := pairs.foldl (applyPair f.cells cond divisor) (f.cells, 0)
  { f with cells := s.1, generation := f.generation + 1 }

/-! Tiled incremental stepper (`automaton/incremental.rs`). -/

/-- Tile edge length. -/
def TILE_SIZE : Nat := 16

/-- Tile coordinate triple (`u8` values in the source). -/
structure TileCoord where
  tx : Nat
  ty : Nat
  tz : Nat
deriving DecidableEq

/-- Bit-spreading helper of `morton_encode`. The final mask of every stage
keeps only bits below `2^26`, so the `Nat` model agrees with the `u32`
arithmetic of the source. -/
def spread_bits (v : Nat) : Nat :=
  let x := v
  let x := (x ||| (x <<< 16)) &&& 0x030000FF
  let x := (x ||| (x <<< 8)) &&& 0x0300F00F
  let x := (x ||| (x <<< 4)) &&& 0x030C30C3
  let x := (x ||| (x <<< 2)) &&& 0x09249249
  x

/-- `morton_encode`: interleave the bits of the three tile indices. -/
def morton_encode (t : TileCoord) : Nat :=
  spread_bits t.tx ||| (spread_bits t.ty <<< 1) ||| (spread_bits t.tz <<< 2)

/-- Stable insertion by Morton key: the new element goes after every
element whose key is less than or equal to its own, as in the stable
`sort_by_key` of the source. -/
def morton_insert (t : TileCoord) : List TileCoord → List TileCoord
  | [] => [t]
  | u :: us =>
    if morton_encode t < morton_encode u then t :: u :: us
    else u :: morton_insert t us

/-- Stable insertion sort by Morton key (the model of `sort_by_key`). -/
def morton_sort : List TileCoord → List TileCoord
  | [] => []
  | t :: ts => morton_insert t (morton_sort ts)

/-- `build_tile_queue`: all tile coordinates, stably sorted by Morton code. -/
def build_tile_queue (tilesX tilesY tilesZ : Nat) : List TileCoord :=
  let tiles := (List.range tilesZ).flatMap fun tz =>
    (List.range tilesY).flatMap fun ty =>
      (List.range tilesX).map fun tx => TileCoord.mk tx ty tz
  morton_sort tiles

/-- The `IncrementalStep` struct: snapshot `source`, accumulating `target`,
Morton-ordered tile queue, atomic cursor, tile count, the generation the
step will produce, and the cached dimensions and diffusion rate.  (The
source caches no conductivity; see claim C8.) -/
structure IncrementalStep where
  source : List Nat
  target : List Nat
  tile_queue : List TileCoord
  next_tile : Nat
  total_tiles : Nat
  target_generation : Nat
  width : Nat
  height : Nat
  depth : Nat
  diffusionRate : Nat
deriving DecidableEq

/-- One ownership contract of `process_tile`: an interior pair with the
positive neighbor, or a boundary mirror when that neighbor is outside. -/
inductive Contract where
  | pair (ia ib : Nat)
  | mirror (ia : Nat)
deriving DecidableEq

/-- The three contracts (X, then Y, then Z axis) owned by one cell. -/
def cell_contracts (w h d x y z : Nat) : List Contract :=
  [ if x + 1 < w then
      Contract.pair (field_index_of w h x y z) (field_index_of w h (x + 1) y z)
    else Contract.mirror (field_index_of w h x y z),
    if y + 1 < h then
      Contract.pair (field_index_of w h x y z) (field_index_of w h x (y + 1) z)
    else Contract.mirror (field_index_of w h x y z),
    if z + 1 < d then
      Contract.pair (field_index_of w h x y z) (field_index_of w h x y (z + 1))
    else Contract.mirror (field_index_of w h x y z) ]

/-- All contracts of one tile, in `process_tile` loop order (z outer, then
y, then x over the tile's intersection with the field). -/
def tile_contracts (w h d : Nat) (t : TileCoord) : List Contract :=
  let xs := t.tx * TILE_SIZE
  let ys := t.ty * TILE_SIZE
  let zs := t.tz * TILE_SIZE
  let xe := min (xs + TILE_SIZE) w
  let ye := min (ys + TILE_SIZE) h
  let ze := min (zs + TILE_SIZE) d
  (List.range' zs (ze - zs)).flatMap fun z =>
    (List.range' ys (ye - ys)).flatMap fun y =>
      (List.range' xs (xe - xs)).flatMap fun x =>
        cell_contracts w h d x y z

/-- Execute one contract of `process_tile`.  The conductivity is the
hard-coded `65535i64` of the source, not the field attribute.  A mirror
contract computes a zero gradient against the ghost cell and applies the
(possibly dithered) flow to the owner only. -/
def apply_contract (src : List Nat) (divisor : Int)
    (st : List Nat × Int) (op : Contract) : List Nat × Int :=
  match op with
  | Contract.pair ia ib =>
    applyPair src 65535 divisor st (ia, ib)
  | Contract.mirror ia =>
    let gradient : Int := (src.getD ia 0 : Int) - (src.getD ia 0 : Int)
    let fa := compute_flow gradient 65535 divisor st.2
    (st.1.set ia (wrap32 ((st.1.getD ia 0 : Int) - fa.1)), fa.2)

/-- `process_tile`: fold the tile's contracts over the target buffer with a
fresh tile-local remainder accumulator starting at 0.  The divisor is the
wrapping `(7i64 << shift) << 16` of the source, negative for rates 45–47
and 0 for rates 48–63. -/
def process_tile (s : IncrementalStep) (t : TileCoord) : IncrementalStep :=
  let divisor : Int := shl64 (shl64 7 s.diffusionRate) 16
  let res := (tile_contracts s.width s.height s.depth t).foldl
    (apply_contract s.source divisor) (s.target, 0)
  { s with target := res.1 }

/-- The `StepController` struct: the owned field and the optional
in-progress step.  (The rayon pool holds no model-relevant state.) -/
structure StepController where
  field : Field
  active_step : Option IncrementalStep
deriving DecidableEq

/-- `is_stepping`. -/
def StepController.is_stepping (c : StepController) : Bool :=
  c.active_step.isSome

/-- `begin_step`: error (and no change) while a step is active; otherwise
snapshot the cells into `source` and `target`, build the Morton queue from
the per-axis tile counts cast to `u8` (hence the `% 256`), and record
`total_tiles` from the uncast counts, exactly as the source does. -/
def begin_step (c : StepController) : Except Unit StepController :=
  if c.is_stepping then Except.error () else
  let w := c.field.width
  let h := c.field.height
  let d := c.field.depth
  let tilesX := (w + TILE_SIZE - 1) / TILE_SIZE
  let tilesY := (h + TILE_SIZE - 1) / TILE_SIZE
  let tilesZ := (d + TILE_SIZE - 1) / TILE_SIZE
  let step : IncrementalStep :=
    { source := c.field.cells
      target := c.field.cells
      tile_queue := build_tile_queue (tilesX % 256) (tilesY % 256) (tilesZ % 256)
      next_tile := 0
      total_tiles := tilesX * tilesY * tilesZ
      target_generation := c.field.generation + 1
      width := w, height := h, depth := d
      diffusionRate := c.field.diffusionRate }
  Except.ok { c with active_step := some step }

/-- `finalize_step`: commit `target` as the cells, set the generation, drop
the step. -/
def finalize_step (c : StepController) (s : IncrementalStep) : StepController :=
  { field := { c.field with cells := s.target, generation := s.target_generation }
    active_step := none }

/-- Claim one tile and process it: the body of one iteration of the `tick`
loop (the `fetch_add` of the cursor together with `process_tile`). -/
def advance_tile (s : IncrementalStep) (t : TileCoord) : IncrementalStep :=
  { process_tile s t with next_tile := s.next_tile + 1 }

/-- The tile loop of `tick`, with the deadline abstracted as the number of
tiles the budget admits: claim the cursor; if it has reached `total_tiles`
report completion; otherwise look up the queue entry (`none` models the
Rust panic when the `u8`-cast queue is shorter than `total_tiles`),
process it, and continue until the fuel (deadline) is exhausted. -/
def run_tiles : Nat → IncrementalStep → Option (Bool × IncrementalStep)
  | 0, s => some (false, s)
  | k + 1, s =>
    if s.total_tiles ≤ s.next_tile then some (true, s)
    else
      match s.tile_queue.get? s.next_tile with
      | none => none
      | some t => run_tiles k (advance_tile s t)

/-- `tick`: true immediately when idle; otherwise run the tile loop and
finalize on completion.  `k` is the number of tiles the budget admits
before the post-tile deadline check fires (`k ≥ 1` in every real call). -/
def tick (c : StepController) (k : Nat) : Option (Bool × StepController) :=
  match c.active_step with
  | none => some (true, c)
  | some s =>
    match run_tiles k s with
    | none => none
    | some (true, s1) => some (true, finalize_step c s1)
    | some (false, s1) => some (false, { c with active_step := some s1 })

/-- Number of unclaimed tiles of the active step (0 when idle). -/
def remaining_tiles (c : StepController) : Nat :=
  match c.active_step with
  | none => 0
  | some s => s.total_tiles - s.next_tile

/-- `step_blocking`: `begin_step` with the result discarded (`.ok()`), then
one `tick` whose budget (`u64::MAX` in the source) admits every remaining
tile, which therefore runs to completion or hits the queue panic. -/
def step_blocking (c : StepController) : Option StepController :=
  let c1 := match begin_step c with
    | Except.ok c2 => c2
    | Except.error _ => c
  match tick c1 (remaining_tiles c1 + 1) with
  | some r => some r.2
  | none => none

/-- Iterated `step_blocking` (`n` completed generations). -/
def step_blockingN : Nat → StepController → Option StepController
  | 0, c => some c
  | n + 1, c =>
    match step_blocking c with
    | some c1 => step_blockingN n c1
    | none => none

/-- The host driver loop `begin_step; while !tick(budget) {}`: call `tick`
(with a budget admitting `k` tiles) until it reports completion, giving up
(`none`) if `fuel` calls do not suffice. -/
def run_ticks (k : Nat) : Nat → StepController → Option StepController
  | 0, _ => none
  | fuel + 1, c =>
    match tick c k with
    | none => none
    | some (true, c1) => some c1
    | some (false, c1) => run_ticks k fuel c1

/-! Entry-point models (`ffi/field.rs`, `ffi/incremental.rs`).  A null
handle is `none`. -/

/-- `va_field_step`: return on null, otherwise apply `field_step` (the
sequential stepper imported through `crate::automaton`). -/
def va_field_step (f : Option Field) : Option Field :=
  match f with
  | none => none
  | some f => some (field_step f)

/-- `va_sc_begin_step`: −1 on null, else 0 on `Ok` and 1 on `Err`, paired
with the resulting controller state. -/
def va_sc_begin_step (c : Option StepController) : Int × Option StepController :=
  match c with
  | none => (-1, none)
  | some c =>
    match begin_step c with
    | Except.ok c1 => (0, some c1)
    | Except.error _ => (1, some c)

/-- `va_sc_tick`: −1 on null, −1 when idle (without touching the
controller), else 1/0 for completed/more work.  The outer `Option` models
the queue panic inside `tick`. -/
def va_sc_tick (c : Option StepController) (k : Nat) :
    Option (Int × Option StepController) :=
  match c with
  | none => some (-1, none)
  | some c =>
    if c.is_stepping then
      match tick c k with
      | none => none
      | some (true, c1) => some (1, some c1)
      | some (false, c1) => some (0, some c1)
    else some (-1, some c)

/-- `va_sc_field_set`: no-op on null, no-op while stepping, otherwise a
`field_set` on the inner field. -/
def va_sc_field_set (c : Option StepController) (x y z : Int) (v : Nat) :
    Option StepController :=
  match c with
  | none => none
  | some c =>
    if c.is_stepping then some c
    else some { c with field := field_set c.field x y z v }

/-- `va_sc_field_get`: 0 on null, otherwise a `field_get` on the committed
inner field (the `Option<NonZeroU32>` round trip of the FFI maps a missing
value to 0, which agrees with `field_get`). -/
def va_sc_field_get (c : Option StepController) (x y z : Int) : Nat :=
  match c with
  | none => 0
  | some c => field_get c.field x y z

/-! Comparison definitions written from the spec's words, to be measured
against the source translations above. -/

/-- Modelled from the spec: the stochastic-rounding rule of §4.1 item 3,
stated verbatim — add `|product mod divisor|` to the accumulator, and when
it reaches the divisor subtract the divisor and bias the truncated
quotient by ±1 according to the sign of the gradient. -/
def spec_rounding_flow (gradient conductivity divisor acc : Int) : Int × Int :=
  let product := gradient * conductivity
  let truncated := product.tdiv divisor
  let acc2 := acc + |product.tmod divisor|
  if acc2 < divisor then
    (truncated, acc2)
  else
    (if gradient < 0 then truncated - 1 else truncated + 1, acc2 - divisor)

/-- Modelled from claim C8: one tile contract where the per-pair product is
`gradient * conductivity` with the conductivity taken from the field
attribute instead of the hard-coded 65535. -/
def apply_contract_claim (cond : Int) (src : List Nat) (divisor : Int)
    (st : List Nat × Int) (op : Contract) : List Nat × Int :=
  match op with
  | Contract.pair ia ib =>
    applyPair src cond divisor st (ia, ib)
  | Contract.mirror ia =>
    let gradient : Int := (src.getD ia 0 : Int) - (src.getD ia 0 : Int)
    let fa := compute_flow gradient cond divisor st.2
    (st.1.set ia (wrap32 ((st.1.getD ia 0 : Int) - fa.1)), fa.2)

/-- Modelled from claim C8: `process_tile` computing every flow with the
field's conductivity value. -/
def process_tile_claim (cond : Int) (s : IncrementalStep) (t : TileCoord) :
    IncrementalStep :=
  let divisor : Int := shl64 (shl64 7 s.diffusionRate) 16
  let res := (tile_contracts s.width s.height s.depth t).foldl
    (apply_contract_claim cond s.source divisor) (s.target, 0)
  { s with target := res.1 }

/-- Modelled from claim C8: the tile loop using the field's conductivity. -/
def run_tiles_claim (cond : Int) : Nat → IncrementalStep → Option (Bool × IncrementalStep)
  | 0, s => some (false, s)
  | k + 1, s =>
    if s.total_tiles ≤ s.next_tile then some (true, s)
    else
      match s.tile_queue.get? s.next_tile with
      | none => none
      | some t =>
        run_tiles_claim cond k
          { process_tile_claim cond s t with next_tile := s.next_tile + 1 }

/-- Modelled from claim C8: `step_blocking` diffusing according to the
field's conductivity attribute. -/
def step_blocking_claim (c : StepController) : Option StepController :=
  let c1 := match begin_step c with
    | Except.ok c2 => c2
    | Except.error _ => c
  match c1.active_step with
  | none => some c1
  | some s =>
    match run_tiles_claim (c.field.conductivity : Int) (remaining_tiles c1 + 1) s with
    | none => none
    | some (true, s1) => some (finalize_step c1 s1)
    | some (false, s1) => some { c1 with active_step := some s1 }

/-- Variant of `apply_contract` in which boundary mirror contracts are
skipped entirely (used to state that the mirror contracts of the source
are no-ops on the committed target). -/
def apply_contract_skip_mirror (src : List Nat) (divisor : Int)
    (st : List Nat × Int) (op : Contract) : List Nat × Int :=
  match op with
  | Contract.pair ia ib =>
    applyPair src 65535 divisor st (ia, ib)
  | Contract.mirror _ => st

/-- Variant of `process_tile` with every boundary mirror contract skipped. -/
def process_tile_skip_mirror (s : IncrementalStep) (t : TileCoord) :
    IncrementalStep :=
  let divisor : Int := shl64 (shl64 7 s.diffusionRate) 16
  let res := (tile_contracts s.width s.height s.depth t).foldl
    (apply_contract_skip_mirror s.source divisor) (s.target, 0)
  { s with target := res.1 }

/-! Helper lemmas. -/

/-- Modulus of the `u32` cell type. -/
abbrev MOD : Nat := 4294967296

lemma wrap32_lt (x : Int) : wrap32 x < MOD := by
  show wrap32 x < 4294967296
  unfold wrap32
  have h := Int.emod_lt_of_pos x (b := 4294967296) (by norm_num)
  have h2 := Int.emod_nonneg x (b := 4294967296) (by norm_num)
  omega

lemma wrap32_coe_eq (x : Int) : ((wrap32 x : Nat) : Int) = x % 4294967296 := by
  unfold wrap32
  have h2 := Int.emod_nonneg x (b := 4294967296) (by norm_num)
  omega

lemma wrap32_of_lt {n : Nat} (h : n < MOD) : wrap32 (n : Int) = n := by
  have h' : n < 4294967296 := h
  unfold wrap32
  omega

lemma wrap32_cast (x : Int) : ((wrap32 x : Nat) : ZMod MOD) = (x : ZMod MOD) := by
  calc ((wrap32 x : Nat) : ZMod MOD)
      = (((wrap32 x : Nat) : Int) : ZMod MOD) := by push_cast; rfl
    _ = ((x % 4294967296 : Int) : ZMod MOD) := by rw [wrap32_coe_eq]
    _ = (x : ZMod MOD) := by
        apply (ZMod.intCast_eq_intCast_iff _ _ _).mpr
        show (x % 4294967296) % ((MOD : Nat) : Int) = x % ((MOD : Nat) : Int)
        have hc : ((MOD : Nat) : Int) = 4294967296 := by norm_num
        rw [hc]
        exact Int.emod_emod_of_dvd x dvd_rfl

lemma sum_set_getD (L : List Nat) : ∀ (n a : Nat), n < L.length →
    (L.set n a).sum + L.getD n 0 = L.sum + a := by
  induction L with
  | nil => intro n a h; simp at h
  | cons x xs ih =>
    intro n a h
    cases n with
    | zero => simp [List.set]; omega
    | succ m =>
      simp only [List.set, List.sum_cons, List.getD_cons_succ]
      have := ih m a (by simpa using h)
      omega

lemma set_getD_self (L : List Nat) : ∀ n, L.set n (L.getD n 0) = L := by
  induction L with
  | nil => intro n; rfl
  | cons x xs ih =>
    intro n
    cases n with
    | zero => rfl
    | succ m =>
      simp only [List.set, List.getD_cons_succ]
      rw [ih]

lemma sum_set_zmod (L : List Nat) (n : Nat) (x : Int) (h : n < L.length) :
    (((L.set n (wrap32 x)).sum : Nat) : ZMod MOD)
      = (L.sum : ZMod MOD) + (x : ZMod MOD) - ((L.getD n 0 : Nat) : ZMod MOD) := by
  have e := sum_set_getD L n (wrap32 x) h
  have e2 : ((L.set n (wrap32 x)).sum : ZMod MOD) + ((L.getD n 0 : Nat) : ZMod MOD)
      = (L.sum : ZMod MOD) + ((wrap32 x : Nat) : ZMod MOD) := by
    exact_mod_cast congrArg (fun m : Nat => (m : ZMod MOD)) e
  rw [wrap32_cast] at e2
  linear_combination e2

lemma applyPair_length (src : List Nat) (c dv : Int) (st : List Nat × Int) (p : Nat × Nat) :
    ((applyPair src c dv st p).1).length = st.1.length := by
  simp [applyPair]

lemma applyPair_sum (src : List Nat) (c dv : Int) (st : List Nat × Int) (p : Nat × Nat)
    (h1 : p.1 < st.1.length) (h2 : p.2 < st.1.length) :
    (((applyPair src c dv st p).1.sum : Nat) : ZMod MOD) = (st.1.sum : ZMod MOD) := by
  simp only [applyPair]
  rw [sum_set_zmod _ _ _ (by simpa using h2), sum_set_zmod _ _ _ h1]
  push_cast
  ring

lemma foldl_applyPair_length (src : List Nat) (c dv : Int) :
    ∀ (ps : List (Nat × Nat)) (st : List Nat × Int),
      ((ps.foldl (applyPair src c dv) st).1).length = st.1.length := by
  intro ps
  induction ps with
  | nil => intro st; rfl
  | cons p ps ih =>
    intro st
    rw [List.foldl_cons, ih, applyPair_length]

lemma foldl_applyPair_sum (src : List Nat) (c dv : Int) :
    ∀ (ps : List (Nat × Nat)) (st : List Nat × Int),
      (∀ p ∈ ps, p.1 < st.1.length ∧ p.2 < st.1.length) →
      (((ps.foldl (applyPair src c dv) st).1.sum : Nat) : ZMod MOD)
        = (st.1.sum : ZMod MOD) := by
  intro ps
  induction ps with
  | nil => intro st _; rfl
  | cons p ps ih =>
    intro st hb
    have hp := hb p (List.mem_cons_self _ _)
    rw [List.foldl_cons, ih _ ?_, applyPair_sum src c dv st p hp.1 hp.2]
    intro q hq
    rw [applyPair_length]
    exact hb q (List.mem_cons_of_mem _ hq)

lemma abs_tmod_lt (a : Int) {b : Int} (hb : 0 < b) : |a.tmod b| < b := by
  rcases le_or_lt 0 a with h | h
  · rw [abs_of_nonneg (Int.tmod_nonneg b h)]
    exact Int.tmod_lt_of_pos a hb
  · have hneg : a.tmod b = -((-a).tmod b) := by
      rw [Int.tmod_def, Int.tmod_def, Int.neg_tdiv]
      ring
    rw [hneg, abs_neg, abs_of_nonneg (Int.tmod_nonneg b (by omega))]
    exact Int.tmod_lt_of_pos (-a) hb

lemma compute_flow_acc (g c dv acc : Int) (hdv : 0 < dv) (h0 : 0 ≤ acc) (h1 : acc < dv) :
    0 ≤ (compute_flow g c dv acc).2 ∧ (compute_flow g c dv acc).2 < dv := by
  have hlt := abs_tmod_lt (g * c) hdv
  have hnn : 0 ≤ |(g * c).tmod dv| := abs_nonneg _
  simp only [compute_flow]
  split
  · constructor <;> omega
  · constructor <;> omega

lemma compute_flow_zero (c dv acc : Int) (h1 : acc < dv) :
    compute_flow 0 c dv acc = (0, acc) := by
  simp only [compute_flow, zero_mul, Int.zero_tdiv, Int.zero_tmod, abs_zero, add_zero]
  rw [if_neg (by omega)]

lemma wrap64_eq_self {x : Int} (h1 : -9223372036854775808 ≤ x)
    (h2 : x < 9223372036854775808) : wrap64 x = x := by
  unfold wrap64
  omega

lemma shl64_divisor_eq {r : Nat} (hr : r ≤ 44) :
    shl64 (shl64 7 r) 16 = 7 * 2 ^ r * 65536 := by
  have hb : (2 : Int) ^ r ≤ 17592186044416 := by
    calc (2 : Int) ^ r ≤ 2 ^ 44 := pow_le_pow_right₀ (by norm_num) hr
      _ = 17592186044416 := by norm_num
  have h0 : (0 : Int) < 2 ^ r := by positivity
  unfold shl64 wrap64
  have e16 : (2 : Int) ^ 16 = 65536 := by norm_num
  rw [e16]
  generalize (2 : Int) ^ r = p at h0 hb ⊢
  omega

lemma shl64_divisor_pos {r : Nat} (hr : r ≤ 44) :
    (0 : Int) < shl64 (shl64 7 r) 16 := by
  rw [shl64_divisor_eq hr]
  positivity

/-- Index range predicate for a tile contract. -/
def Contract.inRange (n : Nat) : Contract → Prop
  | Contract.pair ia ib => ia < n ∧ ib < n
  | Contract.mirror ia => ia < n

lemma apply_contract_length (src : List Nat) (dv : Int) (st : List Nat × Int)
    (op : Contract) :
    ((apply_contract src dv st op).1).length = st.1.length := by
  cases op <;> simp [apply_contract, applyPair]

lemma apply_contract_sum (src : List Nat) (dv : Int) (hdv : 0 < dv)
    (st : List Nat × Int) (op : Contract) (hop : op.inRange st.1.length)
    (h0 : 0 ≤ st.2) (h1 : st.2 < dv) :
    (((apply_contract src dv st op).1.sum : Nat) : ZMod MOD) = (st.1.sum : ZMod MOD) ∧
      0 ≤ (apply_contract src dv st op).2 ∧ (apply_contract src dv st op).2 < dv := by
  cases op with
  | pair ia ib =>
    have hacc := compute_flow_acc ((src.getD ia 0 : Int) - (src.getD ib 0 : Int))
      65535 dv st.2 hdv h0 h1
    refine ⟨applyPair_sum _ _ _ _ _ hop.1 hop.2, ?_, ?_⟩
    · simpa [apply_contract, applyPair] using hacc.1
    · simpa [apply_contract, applyPair] using hacc.2
  | mirror ia =>
    have hg : (src.getD ia 0 : Int) - (src.getD ia 0 : Int) = 0 := by ring
    simp only [apply_contract, hg, compute_flow_zero _ _ _ h1]
    refine ⟨?_, h0, h1⟩
    rw [sum_set_zmod _ _ _ hop]
    push_cast
    ring

lemma foldl_contract_invariant (src : List Nat) (dv : Int) (hdv : 0 < dv) :
    ∀ (ops : List Contract) (st : List Nat × Int),
      (∀ op ∈ ops, op.inRange st.1.length) → 0 ≤ st.2 → st.2 < dv →
      ((ops.foldl (apply_contract src dv) st).1.length = st.1.length ∧
       (((ops.foldl (apply_contract src dv) st).1.sum : Nat) : ZMod MOD) = st.1.sum ∧
       0 ≤ (ops.foldl (apply_contract src dv) st).2 ∧
       (ops.foldl (apply_contract src dv) st).2 < dv) := by
  intro ops
  induction ops with
  | nil => intro st _ h0 h1; exact ⟨rfl, rfl, h0, h1⟩
  | cons op ops ih =>
    intro st hb h0 h1
    have hop := hb op (List.mem_cons_self _ _)
    have hsum := apply_contract_sum src dv hdv st op hop h0 h1
    have hlen := apply_contract_length src dv st op
    rw [List.foldl_cons]
    have hb' : ∀ q ∈ ops, q.inRange (apply_contract src dv st op).1.length := by
      intro q hq
      rw [hlen]
      exact hb q (List.mem_cons_of_mem _ hq)
    obtain ⟨l1, s1, a0, a1⟩ := ih (apply_contract src dv st op) hb' hsum.2.1 hsum.2.2
    exact ⟨by rw [l1, hlen], by rw [s1, hsum.1], a0, a1⟩

lemma field_index_lt {w h d x y z : Nat} (hx : x < w) (hy : y < h) (hz : z < d) :
    field_index_of w h x y z < w * h * d := by
  unfold field_index_of
  have hz1 : z + 1 ≤ d := hz
  have hy1 : y + 1 ≤ h := hy
  have k1 : (z + 1) * h ≤ d * h := Nat.mul_le_mul hz1 (le_refl h)
  have e1 : (z + 1) * h = z * h + h := by ring
  have k2 : z * h + y + 1 ≤ d * h := by omega
  have k3 : (z * h + y + 1) * w ≤ (d * h) * w := Nat.mul_le_mul k2 (le_refl w)
  have e2 : (z * h + y + 1) * w = z * h * w + y * w + w := by ring
  have e3 : (d * h) * w = w * h * d := by ring
  omega

lemma xPairs_bounds {w h d : Nat} :
    ∀ p ∈ xPairs w h d, p.1 < w * h * d ∧ p.2 < w * h * d := by
  intro p hp
  simp only [xPairs, List.mem_flatMap, List.mem_map, List.mem_range] at hp
  obtain ⟨z, hz, y, hy, x, hx, rfl⟩ := hp
  exact ⟨field_index_lt (by omega) hy hz, field_index_lt (by omega) hy hz⟩

lemma yPairs_bounds {w h d : Nat} :
    ∀ p ∈ yPairs w h d, p.1 < w * h * d ∧ p.2 < w * h * d := by
  intro p hp
  simp only [yPairs, List.mem_flatMap, List.mem_map, List.mem_range] at hp
  obtain ⟨z, hz, y, hy, x, hx, rfl⟩ := hp
  exact ⟨field_index_lt hx (by omega) hz, field_index_lt hx (by omega) hz⟩

lemma zPairs_bounds {w h d : Nat} :
    ∀ p ∈ zPairs w h d, p.1 < w * h * d ∧ p.2 < w * h * d := by
  intro p hp
  simp only [zPairs, List.mem_flatMap, List.mem_map, List.mem_range] at hp
  obtain ⟨z, hz, y, hy, x, hx, rfl⟩ := hp
  exact ⟨field_index_lt hx hy (by omega), field_index_lt hx hy (by omega)⟩

lemma cell_contracts_inRange {w h d x y z : Nat} (hx : x < w) (hy : y < h) (hz : z < d) :
    ∀ op ∈ cell_contracts w h d x y z, op.inRange (w * h * d) := by
  intro op hop
  simp only [cell_contracts, List.mem_cons, List.not_mem_nil, or_false] at hop
  rcases hop with rfl | rfl | rfl
  · split
    · exact ⟨field_index_lt hx hy hz, field_index_lt (by omega) hy hz⟩
    · exact field_index_lt hx hy hz
  · split
    · exact ⟨field_index_lt hx hy hz, field_index_lt hx (by omega) hz⟩
    · exact field_index_lt hx hy hz
  · split
    · exact ⟨field_index_lt hx hy hz, field_index_lt hx hy (by omega)⟩
    · exact field_index_lt hx hy hz

lemma tile_contracts_inRange (w h d : Nat) (t : TileCoord) :
    ∀ op ∈ tile_contracts w h d t, op.inRange (w * h * d) := by
  intro op hop
  simp only [tile_contracts, List.mem_flatMap, List.mem_range'] at hop
  obtain ⟨z, hz, y, hy, x, hx, hcell⟩ := hop
  have hxw : x < w := by
    have := Nat.min_le_right (t.tx * TILE_SIZE + TILE_SIZE) w
    omega
  have hyh : y < h := by
    have := Nat.min_le_right (t.ty * TILE_SIZE + TILE_SIZE) h
    omega
  have hzd : z < d := by
    have := Nat.min_le_right (t.tz * TILE_SIZE + TILE_SIZE) d
    omega
  exact cell_contracts_inRange hxw hyh hzd op hcell

lemma process_tile_conserves (s : IncrementalStep) (t : TileCoord)
    (hr : s.diffusionRate ≤ 44)
    (hlen : s.target.length = s.width * s.height * s.depth) :
    (process_tile s t).target.length = s.target.length ∧
    (((process_tile s t).target.sum : Nat) : ZMod MOD) = s.target.sum := by
  have hdv : (0 : Int) < shl64 (shl64 7 s.diffusionRate) 16 := shl64_divisor_pos hr
  have hops : ∀ op ∈ tile_contracts s.width s.height s.depth t,
      op.inRange ((s.target, (0 : Int)).1.length) := by
    intro op hop
    rw [hlen]
    exact tile_contracts_inRange _ _ _ t op hop
  have hinv := foldl_contract_invariant s.source _ hdv
    (tile_contracts s.width s.height s.depth t) (s.target, 0) hops (le_refl 0) hdv
  exact ⟨hinv.1, hinv.2.1⟩

lemma getD_lt_MOD {L : List Nat} (h : ∀ v ∈ L, v < MOD) (n : Nat) :
    L.getD n 0 < MOD := by
  rcases lt_or_ge n L.length with hn | hn
  · rw [List.getD_eq_getElem L 0 hn]
    exact h _ (List.getElem_mem hn)
  · rw [List.getD_eq_default L 0 hn]
    norm_num

lemma set_values_lt {L : List Nat} (h : ∀ v ∈ L, v < MOD) {x : Nat} (n : Nat)
    (hx : x < MOD) : ∀ v ∈ L.set n x, v < MOD := by
  intro v hv
  rcases List.mem_or_eq_of_mem_set hv with hv' | rfl
  · exact h v hv'
  · exact hx

lemma applyPair_values_lt {src : List Nat} {c dv : Int} {st : List Nat × Int}
    (h : ∀ v ∈ st.1, v < MOD) (p : Nat × Nat) :
    ∀ v ∈ (applyPair src c dv st p).1, v < MOD := by
  simp only [applyPair]
  exact set_values_lt (set_values_lt h _ (wrap32_lt _)) _ (wrap32_lt _)

lemma foldl_contract_skip_mirror (src : List Nat) (dv : Int) (hdv : 0 < dv) :
    ∀ (ops : List Contract) (st : List Nat × Int),
      (∀ v ∈ st.1, v < MOD) → 0 ≤ st.2 → st.2 < dv →
      ops.foldl (apply_contract src dv) st
        = ops.foldl (apply_contract_skip_mirror src dv) st := by
  intro ops
  induction ops with
  | nil => intro st _ _ _; rfl
  | cons op ops ih =>
    intro st hv h0 h1
    rw [List.foldl_cons, List.foldl_cons]
    cases op with
    | pair ia ib =>
      have heq : apply_contract src dv st (Contract.pair ia ib)
          = apply_contract_skip_mirror src dv st (Contract.pair ia ib) := rfl
      rw [heq]
      have hacc := compute_flow_acc ((src.getD ia 0 : Int) - (src.getD ib 0 : Int))
        65535 dv st.2 hdv h0 h1
      refine ih _ (applyPair_values_lt hv _) ?_ ?_
      · simpa [apply_contract_skip_mirror, applyPair] using hacc.1
      · simpa [apply_contract_skip_mirror, applyPair] using hacc.2
    | mirror ia =>
      have hg : (src.getD ia 0 : Int) - (src.getD ia 0 : Int) = 0 := by ring
      have heq : apply_contract src dv st (Contract.mirror ia) = st := by
        simp only [apply_contract, hg, compute_flow_zero _ _ _ h1, sub_zero]
        rw [wrap32_of_lt (getD_lt_MOD hv ia), set_getD_self]
      rw [heq]
      exact ih st hv h0 h1

/-! Structural lemmas about the tile loop. -/

lemma run_tiles_zero (s : IncrementalStep) : run_tiles 0 s = some (false, s) := rfl

lemma run_tiles_succ (k : Nat) (s : IncrementalStep) :
    run_tiles (k + 1) s =
      if s.total_tiles ≤ s.next_tile then some (true, s)
      else
        match s.tile_queue.get? s.next_tile with
        | none => none
        | some t => run_tiles k (advance_tile s t) := rfl

lemma advance_tile_next (s : IncrementalStep) (t : TileCoord) :
    (advance_tile s t).next_tile = s.next_tile + 1 := rfl

lemma advance_tile_total (s : IncrementalStep) (t : TileCoord) :
    (advance_tile s t).total_tiles = s.total_tiles := rfl

lemma advance_tile_queue (s : IncrementalStep) (t : TileCoord) :
    (advance_tile s t).tile_queue = s.tile_queue := rfl

lemma advance_tile_dims (s : IncrementalStep) (t : TileCoord) :
    (advance_tile s t).width = s.width ∧ (advance_tile s t).height = s.height ∧
      (advance_tile s t).depth = s.depth ∧
      (advance_tile s t).target_generation = s.target_generation :=
  ⟨rfl, rfl, rfl, rfl⟩

lemma run_tiles_false_shape : ∀ (k : Nat) (s s1 : IncrementalStep),
    run_tiles k s = some (false, s1) →
    s1.next_tile = s.next_tile + k ∧ s1.total_tiles = s.total_tiles ∧
      s1.tile_queue = s.tile_queue := by
  intro k
  induction k with
  | zero =>
    intro s s1 h
    rw [run_tiles_zero] at h
    simp only [Option.some_inj, Prod.mk.injEq, true_and] at h
    subst h
    exact ⟨by omega, rfl, rfl⟩
  | succ k ih =>
    intro s s1 h
    rw [run_tiles_succ] at h
    by_cases hdone : s.total_tiles ≤ s.next_tile
    · rw [if_pos hdone] at h
      exact absurd h (by simp)
    · rw [if_neg hdone] at h
      cases hget : s.tile_queue.get? s.next_tile with
      | none => rw [hget] at h; exact absurd h (by simp)
      | some t =>
        rw [hget] at h
        obtain ⟨h1, h2, h3⟩ := ih _ _ h
        rw [advance_tile_next] at h1
        rw [advance_tile_total] at h2
        rw [advance_tile_queue] at h3
        exact ⟨by omega, h2, h3⟩

lemma run_tiles_false_comp : ∀ (k1 k2 : Nat) (s s1 : IncrementalStep),
    run_tiles k1 s = some (false, s1) →
    run_tiles (k1 + k2) s = run_tiles k2 s1 := by
  intro k1
  induction k1 with
  | zero =>
    intro k2 s s1 h
    rw [run_tiles_zero] at h
    simp only [Option.some_inj, Prod.mk.injEq, true_and] at h
    subst h
    rw [Nat.zero_add]
  | succ k ih =>
    intro k2 s s1 h
    rw [run_tiles_succ] at h
    have e : k + 1 + k2 = (k + k2) + 1 := by omega
    rw [e, run_tiles_succ]
    by_cases hdone : s.total_tiles ≤ s.next_tile
    · rw [if_pos hdone] at h
      exact absurd h (by simp)
    · rw [if_neg hdone] at h ⊢
      cases hget : s.tile_queue.get? s.next_tile with
      | none => rw [hget] at h; exact absurd h (by simp)
      | some t =>
        rw [hget] at h
        exact ih k2 _ s1 h

lemma run_tiles_none_comp : ∀ (k1 k2 : Nat) (s : IncrementalStep),
    run_tiles k1 s = none → run_tiles (k1 + k2) s = none := by
  intro k1
  induction k1 with
  | zero =>
    intro k2 s h
    rw [run_tiles_zero] at h
    exact absurd h (by simp)
  | succ k ih =>
    intro k2 s h
    rw [run_tiles_succ] at h
    have e : k + 1 + k2 = (k + k2) + 1 := by omega
    rw [e, run_tiles_succ]
    by_cases hdone : s.total_tiles ≤ s.next_tile
    · rw [if_pos hdone] at h
      exact absurd h (by simp)
    · rw [if_neg hdone] at h ⊢
      cases hget : s.tile_queue.get? s.next_tile with
      | none => rfl
      | some t =>
        rw [hget] at h
        exact ih k2 _ h

lemma run_tiles_true_remaining : ∀ (k : Nat) (s s1 : IncrementalStep),
    run_tiles k s = some (true, s1) → s.total_tiles - s.next_tile < k := by
  intro k
  induction k with
  | zero =>
    intro s s1 h
    rw [run_tiles_zero] at h
    exact absurd h (by simp)
  | succ k ih =>
    intro s s1 h
    rw [run_tiles_succ] at h
    by_cases hdone : s.total_tiles ≤ s.next_tile
    · omega
    · rw [if_neg hdone] at h
      cases hget : s.tile_queue.get? s.next_tile with
      | none => rw [hget] at h; exact absurd h (by simp)
      | some t =>
        rw [hget] at h
        have := ih _ _ h
        rw [advance_tile_total, advance_tile_next] at this
        omega

lemma run_tiles_not_false_of_lt : ∀ (k : Nat) (s s1 : IncrementalStep),
    s.total_tiles - s.next_tile < k → run_tiles k s ≠ some (false, s1) := by
  intro k
  induction k with
  | zero => intro s s1 h; omega
  | succ k ih =>
    intro s s1 hr
    rw [run_tiles_succ]
    by_cases hdone : s.total_tiles ≤ s.next_tile
    · rw [if_pos hdone]; simp
    · rw [if_neg hdone]
      cases hget : s.tile_queue.get? s.next_tile with
      | none => simp
      | some t =>
        apply ih
        rw [advance_tile_total, advance_tile_next]
        omega

lemma run_tiles_agree : ∀ (n k1 k2 : Nat) (s : IncrementalStep),
    s.total_tiles - s.next_tile = n → n < k1 → n < k2 →
    run_tiles k1 s = run_tiles k2 s := by
  intro n
  induction n with
  | zero =>
    intro k1 k2 s hr h1 h2
    obtain ⟨a, rfl⟩ : ∃ a, k1 = a + 1 := ⟨k1 - 1, by omega⟩
    obtain ⟨b, rfl⟩ : ∃ b, k2 = b + 1 := ⟨k2 - 1, by omega⟩
    rw [run_tiles_succ, run_tiles_succ]
    have hdone : s.total_tiles ≤ s.next_tile := by omega
    rw [if_pos hdone, if_pos hdone]
  | succ n ih =>
    intro k1 k2 s hr h1 h2
    obtain ⟨a, rfl⟩ : ∃ a, k1 = a + 1 := ⟨k1 - 1, by omega⟩
    obtain ⟨b, rfl⟩ : ∃ b, k2 = b + 1 := ⟨k2 - 1, by omega⟩
    rw [run_tiles_succ, run_tiles_succ]
    have hndone : ¬ (s.total_tiles ≤ s.next_tile) := by omega
    rw [if_neg hndone, if_neg hndone]
    cases hget : s.tile_queue.get? s.next_tile with
    | none => rfl
    | some t =>
      show run_tiles a (advance_tile s t) = run_tiles b (advance_tile s t)
      apply ih a b
      · rw [advance_tile_total, advance_tile_next]
        omega
      · omega
      · omega

lemma run_tiles_complete : ∀ (k : Nat) (s : IncrementalStep),
    s.tile_queue.length = s.total_tiles →
    s.total_tiles - s.next_tile < k →
    ∃ s1, run_tiles k s = some (true, s1) := by
  intro k
  induction k with
  | zero => intro s _ h; omega
  | succ k ih =>
    intro s hq hr
    rw [run_tiles_succ]
    by_cases hdone : s.total_tiles ≤ s.next_tile
    · rw [if_pos hdone]
      exact ⟨s, rfl⟩
    · rw [if_neg hdone]
      have hlt : s.next_tile < s.tile_queue.length := by omega
      obtain ⟨t, hget⟩ : ∃ t, s.tile_queue.get? s.next_tile = some t :=
        ⟨s.tile_queue.get ⟨s.next_tile, hlt⟩, List.get?_eq_get hlt⟩
      rw [hget]
      apply ih
      · rw [advance_tile_queue, advance_tile_total]
        exact hq
      · rw [advance_tile_total, advance_tile_next]
        omega

lemma run_tiles_conserves : ∀ (k : Nat) (s : IncrementalStep) (b : Bool)
    (s1 : IncrementalStep), run_tiles k s = some (b, s1) →
    s.target.length = s.width * s.height * s.depth →
    s.diffusionRate ≤ 44 →
    (s1.width = s.width ∧ s1.height = s.height ∧ s1.depth = s.depth ∧
     s1.target_generation = s.target_generation ∧
     s1.target.length = s.target.length ∧
     ((s1.target.sum : Nat) : ZMod MOD) = s.target.sum) := by
  intro k
  induction k with
  | zero =>
    intro s b s1 h _ _
    rw [run_tiles_zero] at h
    simp only [Option.some_inj, Prod.mk.injEq] at h
    rw [← h.2]
    exact ⟨rfl, rfl, rfl, rfl, rfl, rfl⟩
  | succ k ih =>
    intro s b s1 h hlen hr
    rw [run_tiles_succ] at h
    by_cases hdone : s.total_tiles ≤ s.next_tile
    · rw [if_pos hdone] at h
      simp only [Option.some_inj, Prod.mk.injEq] at h
      rw [← h.2]
      exact ⟨rfl, rfl, rfl, rfl, rfl, rfl⟩
    · rw [if_neg hdone] at h
      cases hget : s.tile_queue.get? s.next_tile with
      | none => rw [hget] at h; exact absurd h (by simp)
      | some t =>
        rw [hget] at h
        have hpt := process_tile_conserves s t hr hlen
        have hlen' : (advance_tile s t).target.length
            = (advance_tile s t).width * (advance_tile s t).height * (advance_tile s t).depth := by
          show (process_tile s t).target.length = s.width * s.height * s.depth
          rw [hpt.1, hlen]
        have hr' : (advance_tile s t).diffusionRate ≤ 44 := hr
        obtain ⟨w1, h1, d1, g1, l1, m1⟩ := ih _ b s1 h hlen' hr'
        have hw : (advance_tile s t).width = s.width := rfl
        have hh : (advance_tile s t).height = s.height := rfl
        have hd : (advance_tile s t).depth = s.depth := rfl
        have hg : (advance_tile s t).target_generation = s.target_generation := rfl
        have hat : (advance_tile s t).target = (process_tile s t).target := rfl
        refine ⟨by rw [w1, hw], by rw [h1, hh], by rw [d1, hd], by rw [g1, hg], ?_, ?_⟩
        · rw [l1, hat, hpt.1]
        · rw [m1, hat, hpt.2]

/-! Controller-level lemmas. -/

lemma begin_step_ok_props (c : StepController) (hidle : c.active_step = none) :
    ∃ s, begin_step c = Except.ok { c with active_step := some s } ∧
      s.source = c.field.cells ∧ s.target = c.field.cells ∧ s.next_tile = 0 ∧
      s.total_tiles = ((c.field.width + TILE_SIZE - 1) / TILE_SIZE)
        * ((c.field.height + TILE_SIZE - 1) / TILE_SIZE)
        * ((c.field.depth + TILE_SIZE - 1) / TILE_SIZE) ∧
      s.tile_queue = build_tile_queue
        (((c.field.width + TILE_SIZE - 1) / TILE_SIZE) % 256)
        (((c.field.height + TILE_SIZE - 1) / TILE_SIZE) % 256)
        (((c.field.depth + TILE_SIZE - 1) / TILE_SIZE) % 256) ∧
      s.target_generation = c.field.generation + 1 ∧
      s.width = c.field.width ∧ s.height = c.field.height ∧ s.depth = c.field.depth ∧
      s.diffusionRate = c.field.diffusionRate := by
  refine ⟨{ source := c.field.cells
            target := c.field.cells
            tile_queue := build_tile_queue
              (((c.field.width + TILE_SIZE - 1) / TILE_SIZE) % 256)
              (((c.field.height + TILE_SIZE - 1) / TILE_SIZE) % 256)
              (((c.field.depth + TILE_SIZE - 1) / TILE_SIZE) % 256)
            next_tile := 0
            total_tiles := ((c.field.width + TILE_SIZE - 1) / TILE_SIZE)
              * ((c.field.height + TILE_SIZE - 1) / TILE_SIZE)
              * ((c.field.depth + TILE_SIZE - 1) / TILE_SIZE)
            target_generation := c.field.generation + 1
            width := c.field.width, height := c.field.height, depth := c.field.depth
            diffusionRate := c.field.diffusionRate },
    ?_, rfl, rfl, rfl, rfl, rfl, rfl, rfl, rfl, rfl, rfl⟩
  unfold begin_step StepController.is_stepping
  rw [hidle]
  rfl

lemma begin_step_stepping (c : StepController) (h : c.active_step.isSome) :
    begin_step c = Except.error () := by
  unfold begin_step StepController.is_stepping
  rw [if_pos h]

lemma tick_of_active (c : StepController) (s : IncrementalStep)
    (hc : c.active_step = some s) (m : Nat) :
    tick c m = (match run_tiles m s with
      | none => none
      | some (true, s1) => some (true, finalize_step c s1)
      | some (false, s1) => some (false, { c with active_step := some s1 })) := by
  unfold tick
  rw [hc]

lemma run_ticks_succ_eq (k fuel : Nat) (c : StepController) :
    run_ticks k (fuel + 1) c = (match tick c k with
      | none => none
      | some (true, c1) => some c1
      | some (false, c1) => run_ticks k fuel c1) := rfl

lemma run_ticks_eq_tick (k : Nat) (hk : 1 ≤ k) :
    ∀ (r fuel : Nat), r < fuel → ∀ (c : StepController) (s : IncrementalStep),
      c.active_step = some s → s.total_tiles - s.next_tile = r →
      run_ticks k fuel c = (tick c (r + 1)).map Prod.snd := by
  intro r
  induction r using Nat.strong_induction_on with
  | _ r ih =>
    intro fuel hfuel c s hc hr
    obtain ⟨fl, rfl⟩ : ∃ fl, fuel = fl + 1 := ⟨fuel - 1, by omega⟩
    rw [run_ticks_succ_eq, tick_of_active c s hc k, tick_of_active c s hc (r + 1)]
    by_cases hcase : r < k
    · have hagree : run_tiles k s = run_tiles (r + 1) s :=
        run_tiles_agree r k (r + 1) s hr hcase (by omega)
      rw [hagree]
      cases hrt : run_tiles (r + 1) s with
      | none => rfl
      | some p =>
        obtain ⟨b, s1⟩ := p
        cases b with
        | true => rfl
        | false => exact absurd hrt (run_tiles_not_false_of_lt (r + 1) s s1 (by omega))
    · push_neg at hcase
      cases hrt : run_tiles k s with
      | none =>
        have hnone : run_tiles (r + 1) s = none := by
          have e : r + 1 = k + (r + 1 - k) := by omega
          rw [e]
          exact run_tiles_none_comp k _ s hrt
        rw [hnone]
        rfl
      | some p =>
        obtain ⟨b, s1⟩ := p
        cases b with
        | true => exact absurd (run_tiles_true_remaining k s s1 hrt) (by omega)
        | false =>
          obtain ⟨hn1, hn2, _⟩ := run_tiles_false_shape k s s1 hrt
          have hrec := ih (r - k) (by omega) fl (by omega)
            { c with active_step := some s1 } s1 rfl (by omega)
          show run_ticks k fl { c with active_step := some s1 } = _
          rw [hrec]
          have hcomp : run_tiles (r + 1) s = run_tiles (r - k + 1) s1 := by
            have e : r + 1 = k + (r - k + 1) := by omega
            rw [e]
            exact run_tiles_false_comp k _ s s1 hrt
          rw [tick_of_active { c with active_step := some s1 } s1 rfl (r - k + 1), hcomp]
          cases run_tiles (r - k + 1) s1 with
          | none => rfl
          | some q =>
            obtain ⟨b2, s2⟩ := q
            cases b2 <;> rfl

lemma step_blocking_eq (c c1 : StepController) (hok : begin_step c = Except.ok c1) :
    step_blocking c = (tick c1 (remaining_tiles c1 + 1)).map Prod.snd := by
  simp only [step_blocking, hok]
  cases htk : tick c1 (remaining_tiles c1 + 1) with
  | none => rfl
  | some r => rfl

lemma step_blocking_props (c : StepController) (hidle : c.active_step = none)
    (hlen : c.field.cells.length = c.field.width * c.field.height * c.field.depth)
    (hr44 : c.field.diffusionRate ≤ 44) :
    ∀ c', step_blocking c = some c' →
      c'.active_step = none ∧
      c'.field.width = c.field.width ∧ c'.field.height = c.field.height ∧
      c'.field.depth = c.field.depth ∧
      c'.field.diffusionRate = c.field.diffusionRate ∧
      c'.field.conductivity = c.field.conductivity ∧
      c'.field.generation = c.field.generation + 1 ∧
      c'.field.cells.length = c.field.cells.length ∧
      ((c'.field.cells.sum : Nat) : ZMod MOD) = c.field.cells.sum := by
  obtain ⟨s, hok, hsrc, htgt, hnext, htot, hq, hgen, hw, hh, hd, hr⟩ :=
    begin_step_ok_props c hidle
  intro c' hsb
  rw [step_blocking_eq c _ hok] at hsb
  have hc1 : ({ c with active_step := some s } : StepController).active_step = some s := rfl
  rw [tick_of_active _ s hc1] at hsb
  have hrem : remaining_tiles { c with active_step := some s }
      = s.total_tiles - s.next_tile := by
    unfold remaining_tiles
    rfl
  cases hrt : run_tiles (remaining_tiles { c with active_step := some s } + 1) s with
  | none => rw [hrt] at hsb; exact absurd hsb (by simp)
  | some p =>
    obtain ⟨b, s1⟩ := p
    cases b with
    | false =>
      exact absurd hrt (run_tiles_not_false_of_lt _ s s1 (by omega))
    | true =>
      rw [hrt] at hsb
      simp only [Option.map_some', Option.some_inj] at hsb
      have hcons := run_tiles_conserves _ s true s1 hrt
        (by rw [htgt, hw, hh, hd]; exact hlen) (by rw [hr]; exact hr44)
      obtain ⟨_, _, _, g1, l1, m1⟩ := hcons
      subst hsb
      refine ⟨rfl, rfl, rfl, rfl, rfl, rfl, ?_, ?_, ?_⟩
      · show s1.target_generation = c.field.generation + 1
        rw [g1, hgen]
      · show s1.target.length = c.field.cells.length
        rw [l1, htgt]
      · show ((s1.target.sum : Nat) : ZMod MOD) = c.field.cells.sum
        rw [m1, htgt]

lemma step_blockingN_props (n : Nat) : ∀ (c : StepController),
    c.active_step = none →
    c.field.cells.length = c.field.width * c.field.height * c.field.depth →
    c.field.diffusionRate ≤ 44 →
    ∀ c', step_blockingN n c = some c' →
      c'.active_step = none ∧
      c'.field.width = c.field.width ∧ c'.field.height = c.field.height ∧
      c'.field.depth = c.field.depth ∧
      c'.field.generation = c.field.generation + n ∧
      c'.field.cells.length = c.field.cells.length ∧
      ((c'.field.cells.sum : Nat) : ZMod MOD) = c.field.cells.sum := by
  induction n with
  | zero =>
    intro c hidle _ _ c' h
    simp only [step_blockingN, Option.some_inj] at h
    subst h
    exact ⟨hidle, rfl, rfl, rfl, rfl, rfl, rfl⟩
  | succ n ih =>
    intro c hidle hlen hr44 c' h
    simp only [step_blockingN] at h
    cases hsb : step_blocking c with
    | none => rw [hsb] at h; exact absurd h (by simp)
    | some c1 =>
      rw [hsb] at h
      obtain ⟨i1, w1, h1, d1, dr1, _, g1, l1, m1⟩ :=
        step_blocking_props c hidle hlen hr44 c1 hsb
      obtain ⟨i2, w2, h2, d2, g2, l2, m2⟩ := ih c1 i1
        (by rw [l1, w1, h1, d1]; exact hlen) (by rw [dr1]; exact hr44) c' h
      refine ⟨i2, by rw [w2, w1], by rw [h2, h1], by rw [d2, d1], ?_, by rw [l2, l1], ?_⟩
      · rw [g2, g1]
        omega
      · rw [m2, m1]

/-! Conservation of the sequential and fused steppers. -/

lemma field_step_cells_len (f : Field) : (field_step f).cells.length = f.cells.length := by
  simp only [field_step]
  rw [foldl_applyPair_length, foldl_applyPair_length, foldl_applyPair_length]

lemma field_step_fused_cells_len (f : Field) :
    (field_step_fused f).cells.length = f.cells.length := by
  simp only [field_step_fused]
  rw [foldl_applyPair_length]

lemma field_step_sum (f : Field)
    (hlen : f.cells.length = f.width * f.height * f.depth) :
    (((field_step f).cells.sum : Nat) : ZMod MOD) = f.cells.sum := by
  have l1 : ((xPairs f.width f.height f.depth).foldl
      (applyPair f.cells (f.conductivity : Int) (shl64 (shl64 7 f.diffusionRate) 16))
      (f.cells, 0)).1.length = f.cells.length := foldl_applyPair_length _ _ _ _ _
  have m1 := foldl_applyPair_sum f.cells (f.conductivity : Int)
    (shl64 (shl64 7 f.diffusionRate) 16) (xPairs f.width f.height f.depth) (f.cells, 0)
    (by intro p hp; rw [show ((f.cells, (0 : Int)).1) = f.cells from rfl, hlen]
        exact xPairs_bounds p hp)
  set s1 := (xPairs f.width f.height f.depth).foldl
    (applyPair f.cells (f.conductivity : Int) (shl64 (shl64 7 f.diffusionRate) 16))
    (f.cells, 0) with hs1
  have l2 : ((yPairs f.width f.height f.depth).foldl
      (applyPair s1.1 (f.conductivity : Int) (shl64 (shl64 7 f.diffusionRate) 16))
      (s1.1, s1.2)).1.length = s1.1.length := foldl_applyPair_length _ _ _ _ _
  have m2 := foldl_applyPair_sum s1.1 (f.conductivity : Int)
    (shl64 (shl64 7 f.diffusionRate) 16) (yPairs f.width f.height f.depth) (s1.1, s1.2)
    (by intro p hp; rw [show ((s1.1, s1.2).1) = s1.1 from rfl, l1, hlen]
        exact yPairs_bounds p hp)
  set s2 := (yPairs f.width f.height f.depth).foldl
    (applyPair s1.1 (f.conductivity : Int) (shl64 (shl64 7 f.diffusionRate) 16))
    (s1.1, s1.2) with hs2
  have m3 := foldl_applyPair_sum s2.1 (f.conductivity : Int)
    (shl64 (shl64 7 f.diffusionRate) 16) (zPairs f.width f.height f.depth) (s2.1, s2.2)
    (by intro p hp; rw [show ((s2.1, s2.2).1) = s2.1 from rfl, l2, l1, hlen]
        exact zPairs_bounds p hp)
  show (((zPairs f.width f.height f.depth).foldl
    (applyPair s2.1 (f.conductivity : Int) (shl64 (shl64 7 f.diffusionRate) 16))
    (s2.1, s2.2)).1.sum : ZMod MOD) = f.cells.sum
  rw [m3]
  show ((s2.1.sum : Nat) : ZMod MOD) = f.cells.sum
  rw [m2]
  show ((s1.1.sum : Nat) : ZMod MOD) = f.cells.sum
  rw [m1]

lemma field_step_fused_sum (f : Field)
    (hlen : f.cells.length = f.width * f.height * f.depth) :
    (((field_step_fused f).cells.sum : Nat) : ZMod MOD) = f.cells.sum := by
  have m := foldl_applyPair_sum f.cells (f.conductivity : Int)
    (shl64 (shl64 7 f.diffusionRate) 16)
    (xPairs f.width f.height f.depth ++ yPairs f.width f.height f.depth
      ++ zPairs f.width f.height f.depth) (f.cells, 0)
    (by intro p hp
        rw [show ((f.cells, (0 : Int)).1) = f.cells from rfl, hlen]
        rcases List.mem_append.mp hp with hp' | hp'
        · rcases List.mem_append.mp hp' with hp'' | hp''
          · exact xPairs_bounds p hp''
          · exact yPairs_bounds p hp''
        · exact zPairs_bounds p hp')
  exact m

lemma field_step_iter (n : Nat) : ∀ f : Field,
    f.cells.length = f.width * f.height * f.depth →
    (((field_step^[n] f).cells.sum : Nat) : ZMod MOD) = f.cells.sum ∧
      (field_step^[n] f).cells.length = f.cells.length ∧
      (field_step^[n] f).width = f.width ∧ (field_step^[n] f).height = f.height ∧
      (field_step^[n] f).depth = f.depth := by
  induction n with
  | zero => intro f _; exact ⟨rfl, rfl, rfl, rfl, rfl⟩
  | succ n ih =>
    intro f hlen
    rw [Function.iterate_succ_apply]
    have hw : (field_step f).width = f.width := rfl
    have hh : (field_step f).height = f.height := rfl
    have hd : (field_step f).depth = f.depth := rfl
    have hlen' : (field_step f).cells.length
        = (field_step f).width * (field_step f).height * (field_step f).depth := by
      rw [field_step_cells_len, hw, hh, hd]
      exact hlen
    obtain ⟨hsum, hl, w2, h2, d2⟩ := ih (field_step f) hlen'
    refine ⟨?_, ?_, by rw [w2, hw], by rw [h2, hh], by rw [d2, hd]⟩
    · rw [hsum]
      exact field_step_sum f hlen
    · rw [hl, field_step_cells_len]

lemma field_step_fused_iter (n : Nat) : ∀ f : Field,
    f.cells.length = f.width * f.height * f.depth →
    (((field_step_fused^[n] f).cells.sum : Nat) : ZMod MOD) = f.cells.sum ∧
      (field_step_fused^[n] f).cells.length = f.cells.length ∧
      (field_step_fused^[n] f).width = f.width ∧
      (field_step_fused^[n] f).height = f.height ∧
      (field_step_fused^[n] f).depth = f.depth := by
  induction n with
  | zero => intro f _; exact ⟨rfl, rfl, rfl, rfl, rfl⟩
  | succ n ih =>
    intro f hlen
    rw [Function.iterate_succ_apply]
    have hw : (field_step_fused f).width = f.width := rfl
    have hh : (field_step_fused f).height = f.height := rfl
    have hd : (field_step_fused f).depth = f.depth := rfl
    have hlen' : (field_step_fused f).cells.length
        = (field_step_fused f).width * (field_step_fused f).height
          * (field_step_fused f).depth := by
      rw [field_step_fused_cells_len, hw, hh, hd]
      exact hlen
    obtain ⟨hsum, hl, w2, h2, d2⟩ := ih (field_step_fused f) hlen'
    refine ⟨?_, ?_, by rw [w2, hw], by rw [h2, hh], by rw [d2, hd]⟩
    · rw [hsum]
      exact field_step_fused_sum f hlen
    · rw [hl, field_step_fused_cells_len]

/-! Tile-queue coverage (the `u8` cast bound) and conductivity independence. -/

lemma morton_insert_length (t : TileCoord) :
    ∀ l : List TileCoord, (morton_insert t l).length = l.length + 1 := by
  intro l
  induction l with
  | nil => rfl
  | cons u us ih =>
    unfold morton_insert
    split
    · rfl
    · simp only [List.length_cons, ih]

lemma morton_sort_length : ∀ l : List TileCoord, (morton_sort l).length = l.length := by
  intro l
  induction l with
  | nil => rfl
  | cons t ts ih =>
    unfold morton_sort
    rw [morton_insert_length, ih]
    rfl

lemma build_tile_queue_length (a b c : Nat) :
    (build_tile_queue a b c).length = c * (b * a) := by
  unfold build_tile_queue
  rw [morton_sort_length]
  simp only [Function.comp_def, List.length_flatMap, List.length_map, List.length_range,
    List.map_const', List.sum_replicate, smul_eq_mul]

lemma tile_count_le {n : Nat} (h : n ≤ 4080) : (n + TILE_SIZE - 1) / TILE_SIZE ≤ 255 := by
  show (n + 16 - 1) / 16 ≤ 255
  omega

lemma begin_queue_covers (c : StepController) (hidle : c.active_step = none)
    (hw : c.field.width ≤ 4080) (hh : c.field.height ≤ 4080)
    (hd : c.field.depth ≤ 4080) :
    ∀ c1, begin_step c = Except.ok c1 → ∀ s, c1.active_step = some s →
      s.tile_queue.length = s.total_tiles := by
  obtain ⟨s0, hok, _, _, _, htot, hq, _, _, _, _, _⟩ := begin_step_ok_props c hidle
  intro c1 hbc s hcs
  rw [hok] at hbc
  injection hbc with hbc
  rw [← hbc] at hcs
  have hss : s0 = s := by
    have : some s0 = some s := hcs
    injection this
  subst hss
  rw [hq, htot, build_tile_queue_length]
  have e1 : (c.field.width + TILE_SIZE - 1) / TILE_SIZE % 256
      = (c.field.width + TILE_SIZE - 1) / TILE_SIZE :=
    Nat.mod_eq_of_lt (by have := tile_count_le hw; omega)
  have e2 : (c.field.height + TILE_SIZE - 1) / TILE_SIZE % 256
      = (c.field.height + TILE_SIZE - 1) / TILE_SIZE :=
    Nat.mod_eq_of_lt (by have := tile_count_le hh; omega)
  have e3 : (c.field.depth + TILE_SIZE - 1) / TILE_SIZE % 256
      = (c.field.depth + TILE_SIZE - 1) / TILE_SIZE :=
    Nat.mod_eq_of_lt (by have := tile_count_le hd; omega)
  rw [e1, e2, e3]
  ring

/-- Replace the conductivity attribute of the controller's field. -/
def set_conductivity (x : Nat) (c : StepController) : StepController :=
  { c with field := { c.field with conductivity := x } }

lemma begin_set_conductivity (x : Nat) (c : StepController) :
    begin_step (set_conductivity x c) = (begin_step c).map (set_conductivity x) := by
  unfold begin_step set_conductivity StepController.is_stepping
  cases hc : c.active_step with
  | none => rfl
  | some s => rfl

lemma tick_set_conductivity (x : Nat) (c : StepController) (k : Nat) :
    tick (set_conductivity x c) k
      = (tick c k).map (fun p => (p.1, set_conductivity x p.2)) := by
  have hc' : (set_conductivity x c).active_step = c.active_step := rfl
  cases hc : c.active_step with
  | none =>
    have l1 : tick (set_conductivity x c) k = some (true, set_conductivity x c) := by
      unfold tick
      rw [hc', hc]
    have l2 : tick c k = some (true, c) := by
      unfold tick
      rw [hc]
    rw [l1, l2]
    rfl
  | some s =>
    rw [tick_of_active (set_conductivity x c) s (by rw [hc']; exact hc) k,
      tick_of_active c s hc k]
    cases run_tiles k s with
    | none => rfl
    | some p =>
      obtain ⟨b, s1⟩ := p
      cases b <;> rfl

lemma step_blocking_err (c : StepController) {e : Unit}
    (h : begin_step c = Except.error e) :
    step_blocking c = (tick c (remaining_tiles c + 1)).map Prod.snd := by
  simp only [step_blocking, h]
  cases htk : tick c (remaining_tiles c + 1) with
  | none => rfl
  | some r => rfl

lemma step_blocking_set_conductivity (x : Nat) (c : StepController) :
    step_blocking (set_conductivity x c) = (step_blocking c).map (set_conductivity x) := by
  cases hb : begin_step c with
  | error e =>
    have hb' : begin_step (set_conductivity x c) = Except.error e := by
      rw [begin_set_conductivity, hb]
      rfl
    rw [step_blocking_err _ hb', step_blocking_err _ hb]
    rw [show remaining_tiles (set_conductivity x c) = remaining_tiles c from rfl,
      tick_set_conductivity]
    cases tick c (remaining_tiles c + 1) with
    | none => rfl
    | some p => rfl
  | ok c2 =>
    have hb' : begin_step (set_conductivity x c) = Except.ok (set_conductivity x c2) := by
      rw [begin_set_conductivity, hb]
      rfl
    rw [step_blocking_eq _ _ hb', step_blocking_eq _ _ hb]
    rw [show remaining_tiles (set_conductivity x c2) = remaining_tiles c2 from rfl,
      tick_set_conductivity]
    cases tick c2 (remaining_tiles c2 + 1) with
    | none => rfl
    | some p => rfl

lemma run_tiles_isSome : ∀ (k : Nat) (s : IncrementalStep),
    s.tile_queue.length = s.total_tiles → (run_tiles k s).isSome := by
  intro k
  induction k with
  | zero => intro s _; rw [run_tiles_zero]; rfl
  | succ k ih =>
    intro s hq
    rw [run_tiles_succ]
    by_cases hdone : s.total_tiles ≤ s.next_tile
    · rw [if_pos hdone]; rfl
    · rw [if_neg hdone]
      have hlt : s.next_tile < s.tile_queue.length := by omega
      obtain ⟨t, hget⟩ : ∃ t, s.tile_queue.get? s.next_tile = some t :=
        ⟨s.tile_queue.get ⟨s.next_tile, hlt⟩, List.get?_eq_get hlt⟩
      rw [hget]
      exact ih _ (by rw [advance_tile_queue, advance_tile_total]; exact hq)

lemma compute_flow_natAbs_le (gradient conductivity : Int) (r : Nat) (acc : Int)
    (hc0 : 0 ≤ conductivity) (hc1 : conductivity ≤ 65535) :
    ((compute_flow gradient conductivity (7 * 2 ^ r * 65536) acc).1).natAbs
      ≤ gradient.natAbs / 7 + 1 := by
  have hdv : ((7 * 2 ^ r * 65536 : Int)).natAbs = 7 * 2 ^ r * 65536 := by
    rw [Int.natAbs_mul, Int.natAbs_mul]
    norm_num [Int.natAbs_pow]
  have hc : conductivity.natAbs ≤ 65535 := by omega
  have htr : ((gradient * conductivity).tdiv (7 * 2 ^ r * 65536)).natAbs
      ≤ gradient.natAbs / 7 := by
    rw [Int.natAbs_tdiv, Int.natAbs_mul, hdv]
    have h2 : (1 : Nat) ≤ 2 ^ r := Nat.one_le_pow r 2 (by norm_num)
    calc gradient.natAbs * conductivity.natAbs / (7 * 2 ^ r * 65536)
        ≤ gradient.natAbs * 65535 / (7 * 2 ^ r * 65536) :=
          Nat.div_le_div_right (Nat.mul_le_mul le_rfl hc)
      _ ≤ gradient.natAbs * 65535 / (7 * 65536) := by
          apply Nat.div_le_div_left
          · calc 7 * 65536 = 7 * 1 * 65536 := by ring
              _ ≤ 7 * 2 ^ r * 65536 :=
                Nat.mul_le_mul (Nat.mul_le_mul le_rfl h2) le_rfl
          · norm_num
      _ ≤ gradient.natAbs * 65536 / (7 * 65536) :=
          Nat.div_le_div_right (Nat.mul_le_mul le_rfl (by norm_num))
      _ = gradient.natAbs / 7 := by
          rw [Nat.mul_div_mul_right _ _ (by norm_num : (0 : Nat) < 65536)]
  have habs1 : ∀ a : Int, (a + 1).natAbs ≤ a.natAbs + 1 := by
    intro a
    omega
  have habs2 : ∀ a : Int, (a - 1).natAbs ≤ a.natAbs + 1 := by
    intro a
    omega
  simp only [compute_flow]
  split
  · split
    · exact le_trans (habs1 _) (by omega)
    · exact le_trans (habs2 _) (by omega)
  · omega

/-! Theorems for the claims C1 through C10, with witnesses and
counterexamples. -/

/-- Counterexample for C2: at diffusion rate 45 the divisor
`(7i64 << 45) << 16` wraps to `−2^61`, so the check `acc ≥ divisor` fires
on every zero-gradient mirror call and each mirror subtracts 1 from its
owner.  On the 1×1×1 field `[2]` the cell owns three mirror contracts
(one per axis): the committed value passes 2 → 1 → 0 and the third
subtraction wraps through the `as u32` cast to exactly `2^32 − 1` — the
owner decreases by more than 1 per step, is not clipped at 0, and a
mirror flow commits the near-maximum value the claim rules out. -/
theorem c2_mirror_decrement_counterexample :
    (step_blocking ⟨⟨1, 1, 1, [2], 0, 45, 65535⟩, none⟩).map
        (fun c => c.field.cells) = some [4294967295] := by
  decide

/-- Claim C2 as amended: provided `diffusion_rate ≤ 44` (the range where
the i64 divisor `(7 << shift) << 16` does not wrap and is positive), every
boundary mirror contract of `process_tile` is a no-op on the committed
target — the tile's remainder accumulator starts at 0 and always stays
strictly below the divisor, so a zero-gradient mirror call never emits a
±1 dither tick.  Hence the owner of a mirror contract loses at most 1 per
step (in fact exactly 0), a zero-valued boundary owner commits as 0, and
no committed cell can wrap to `2^32 − 1` as a result of a mirror flow.
For rates 45–47 the wrapped divisor is negative, the dither fires on
every mirror call, and the counterexample shows the wrap to `2^32 − 1`. -/
theorem c2_mirror_contract_noop (s : IncrementalStep) (t : TileCoord)
    (hr : s.diffusionRate ≤ 44) (hval : ∀ v ∈ s.target, v < MOD) :
    process_tile s t = process_tile_skip_mirror s t := by
  have hdv : (0 : Int) < shl64 (shl64 7 s.diffusionRate) 16 := shl64_divisor_pos hr
  have hfold := foldl_contract_skip_mirror s.source _ hdv
    (tile_contracts s.width s.height s.depth t) (s.target, 0) hval (le_refl 0) hdv
  simp only [process_tile, process_tile_skip_mirror]
  rw [hfold]

/-- Witness for C2 at a concrete 2×1×1 tile state with rate 0. -/
theorem c2_mirror_witness :
    ((⟨[5, 0], [5, 0], [⟨0, 0, 0⟩], 0, 1, 1, 2, 1, 1, 0⟩
        : IncrementalStep).diffusionRate ≤ 44 ∧
      ∀ v ∈ [(5 : Nat), 0], v < MOD) ∧
      process_tile ⟨[5, 0], [5, 0], [⟨0, 0, 0⟩], 0, 1, 1, 2, 1, 1, 0⟩ ⟨0, 0, 0⟩
        = process_tile_skip_mirror ⟨[5, 0], [5, 0], [⟨0, 0, 0⟩], 0, 1, 1, 2, 1, 1, 0⟩
            ⟨0, 0, 0⟩ :=
  ⟨⟨by decide, by decide⟩,
   c2_mirror_contract_noop ⟨[5, 0], [5, 0], [⟨0, 0, 0⟩], 0, 1, 1, 2, 1, 1, 0⟩ ⟨0, 0, 0⟩
     (by decide) (by decide)⟩

/-- Counterexample for C3: the entry point `va_field_step` does not apply
the fused step — on this 2×2×1 field its result differs from one call of
`field_step_fused` (it applies the sequential `field_step` instead). -/
theorem c3_va_field_step_not_fused :
    va_field_step (some ⟨2, 2, 1, [1000000, 0, 0, 0], 0, 0, 65535⟩)
      ≠ some (field_step_fused ⟨2, 2, 1, [1000000, 0, 0, 0], 0, 0, 65535⟩) := by
  decide

/-- Claim C3 as amended: `va_field_step` applies the sequential
`field_step` (the symbol imported through `crate::automaton`) on a
non-null handle, and returns without effect on a null handle. -/
theorem c3_va_field_step_sequential_null_safe :
    (∀ f : Field, va_field_step (some f) = some (field_step f)) ∧
      va_field_step none = none :=
  ⟨fun _ => rfl, rfl⟩

/-- Claim C4 (confirmed): `compute_flow` returns exactly the value of the
spec's stochastic-rounding rule, for every gradient, every conductivity in
0..=65535, every strictly positive divisor, and every accumulator state. -/
theorem c4_compute_flow_matches_spec_rule (gradient conductivity divisor acc : Int)
    (hc0 : 0 ≤ conductivity) (hc1 : conductivity ≤ 65535) (hdv : 0 < divisor) :
    compute_flow gradient conductivity divisor acc
      = spec_rounding_flow gradient conductivity divisor acc := by
  simp only [compute_flow, spec_rounding_flow]
  by_cases h : divisor ≤ acc + |(gradient * conductivity).tmod divisor|
  · rw [if_pos h,
      if_neg (show ¬(acc + |(gradient * conductivity).tmod divisor| < divisor) from by omega)]
    by_cases hg : 0 ≤ gradient
    · rw [if_pos hg, if_neg (show ¬(gradient < 0) from by omega)]
    · rw [if_neg hg, if_pos (show gradient < 0 from by omega)]
  · rw [if_neg h,
      if_pos (show acc + |(gradient * conductivity).tmod divisor| < divisor from by omega)]

/-- Witness for C4 at gradient 5, conductivity 65535, divisor 7·2^16. -/
theorem c4_compute_flow_witness :
    ((0 : Int) ≤ 65535 ∧ (65535 : Int) ≤ 65535 ∧ (0 : Int) < 458752) ∧
      compute_flow 5 65535 458752 0 = spec_rounding_flow 5 65535 458752 0 :=
  ⟨by decide,
   c4_compute_flow_matches_spec_rule 5 65535 458752 0 (by decide) (by decide) (by decide)⟩

/-- Claim C6 (confirmed): state-machine violations return the distinct
sentinel with no state change — `begin_step` while Stepping yields `Err`
(1 at the FFI) with the controller unchanged, `sc_tick` while Idle yields
−1 with the controller unchanged, and both entry points yield −1 on a
null handle. -/
theorem c6_state_machine_sentinels :
    (∀ c : StepController, c.active_step.isSome →
        va_sc_begin_step (some c) = (1, some c)) ∧
    (∀ (c : StepController) (k : Nat), c.active_step = none →
        va_sc_tick (some c) k = some (-1, some c)) ∧
    va_sc_begin_step none = (-1, none) ∧
    (∀ k : Nat, va_sc_tick none k = some (-1, none)) := by
  refine ⟨?_, ?_, rfl, fun _ => rfl⟩
  · intro c h
    simp [va_sc_begin_step, begin_step_stepping c h]
  · intro c k h
    simp [va_sc_tick, StepController.is_stepping, h]

/-- Witness for C6 at a concrete stepping controller and a concrete idle
controller. -/
theorem c6_sentinel_witness :
    ((⟨⟨1, 1, 1, [3], 0, 0, 65535⟩,
        some ⟨[3], [3], [⟨0, 0, 0⟩], 0, 1, 1, 1, 1, 1, 0⟩⟩ : StepController).active_step.isSome ∧
      va_sc_begin_step (some ⟨⟨1, 1, 1, [3], 0, 0, 65535⟩,
        some ⟨[3], [3], [⟨0, 0, 0⟩], 0, 1, 1, 1, 1, 1, 0⟩⟩)
        = (1, some ⟨⟨1, 1, 1, [3], 0, 0, 65535⟩,
            some ⟨[3], [3], [⟨0, 0, 0⟩], 0, 1, 1, 1, 1, 1, 0⟩⟩)) ∧
    ((⟨⟨1, 1, 1, [3], 0, 0, 65535⟩, none⟩ : StepController).active_step = none ∧
      va_sc_tick (some ⟨⟨1, 1, 1, [3], 0, 0, 65535⟩, none⟩) 7
        = some (-1, some ⟨⟨1, 1, 1, [3], 0, 0, 65535⟩, none⟩)) :=
  ⟨⟨by decide,
    c6_state_machine_sentinels.1 ⟨⟨1, 1, 1, [3], 0, 0, 65535⟩,
      some ⟨[3], [3], [⟨0, 0, 0⟩], 0, 1, 1, 1, 1, 1, 0⟩⟩ (by decide)⟩,
   ⟨rfl,
    c6_state_machine_sentinels.2.1 ⟨⟨1, 1, 1, [3], 0, 0, 65535⟩, none⟩ 7 rfl⟩⟩

/-- Counterexample for C7: on the 3×1×1 field `[0, 700000, 0]` with rate 0
and default conductivity, one step takes the center cell from 700000 down
to 500004 — a loss of 199996, strictly more than 700000/7 = 100000 along
the single (X) axis, because the cell loses through both of its faces. -/
theorem c7_one_seventh_counterexample :
    (field_step ⟨3, 1, 1, [0, 700000, 0], 0, 0, 65535⟩).cells.getD 1 0 = 500004 ∧
      7 * (700000 - 500004) > 700000 := by
  constructor
  · decide
  · decide

/-- Claim C7 as amended: the stability divisor bounds the flow of one
single pair contract by 1/7 of the gradient plus one dither unit
(`|flow| ≤ |gradient|/7 + 1`); a cell owns two faces per axis, so its
per-axis loss can reach twice that, as the counterexample shows. -/
theorem c7_flow_bound_per_pair (gradient conductivity : Int) (r : Nat) (acc : Int)
    (hc0 : 0 ≤ conductivity) (hc1 : conductivity ≤ 65535) :
    ((compute_flow gradient conductivity (7 * 2 ^ r * 65536) acc).1).natAbs
      ≤ gradient.natAbs / 7 + 1 :=
  compute_flow_natAbs_le gradient conductivity r acc hc0 hc1

/-- Witness for C7's amended bound at gradient 700000, conductivity 65535,
rate 0. -/
theorem c7_flow_bound_witness :
    ((0 : Int) ≤ 65535 ∧ (65535 : Int) ≤ 65535) ∧
      ((compute_flow 700000 65535 (7 * 2 ^ 0 * 65536) 0).1).natAbs
        ≤ (700000 : Int).natAbs / 7 + 1 :=
  ⟨by decide, c7_flow_bound_per_pair 700000 65535 0 0 (by decide) (by decide)⟩

/-- Counterexample for C8: a controller whose field has conductivity 0
still diffuses (the tile kernel hard-codes 65535); the claim's version,
which computes every per-pair product with the field's conductivity,
leaves this field unchanged, and the two results differ. -/
theorem c8_conductivity_ignored_counterexample :
    step_blocking ⟨⟨2, 1, 1, [7000000, 0], 0, 0, 0⟩, none⟩
      ≠ step_blocking_claim ⟨⟨2, 1, 1, [7000000, 0], 0, 0, 0⟩, none⟩ := by
  decide

/-- Claim C8 as amended: `begin_step` caches width, height, depth and
diffusion_rate but no conductivity, and tile processing hard-codes
conductivity 65535, so the incremental stepper's result is independent of
the field's conductivity attribute. -/
theorem c8_incremental_conductivity_independent :
    (∀ (x : Nat) (c : StepController),
      step_blocking (set_conductivity x c) = (step_blocking c).map (set_conductivity x)) ∧
    (∀ c : StepController, c.active_step = none →
      ∀ c1, begin_step c = Except.ok c1 → ∀ s, c1.active_step = some s →
        s.width = c.field.width ∧ s.height = c.field.height ∧
          s.depth = c.field.depth ∧ s.diffusionRate = c.field.diffusionRate) := by
  refine ⟨fun x c => step_blocking_set_conductivity x c, ?_⟩
  intro c hidle c1 hok s hcs
  obtain ⟨s0, hok0, _, _, _, _, _, _, hw, hh, hd, hr⟩ := begin_step_ok_props c hidle
  rw [hok0] at hok
  injection hok with hok
  rw [← hok] at hcs
  have he : some s0 = some s := hcs
  injection he with he
  rw [← he]
  exact ⟨hw, hh, hd, hr⟩

/-- Witness for C8's amended claim at a concrete 1×1×1 idle controller. -/
theorem c8_conductivity_witness :
    ((⟨⟨1, 1, 1, [3], 0, 0, 65535⟩, none⟩ : StepController).active_step = none ∧
      begin_step ⟨⟨1, 1, 1, [3], 0, 0, 65535⟩, none⟩
        = Except.ok ⟨⟨1, 1, 1, [3], 0, 0, 65535⟩,
            some ⟨[3], [3], [⟨0, 0, 0⟩], 0, 1, 1, 1, 1, 1, 0⟩⟩) ∧
      ((⟨[3], [3], [⟨0, 0, 0⟩], 0, 1, 1, 1, 1, 1, 0⟩ : IncrementalStep).width = 1 ∧
        (⟨[3], [3], [⟨0, 0, 0⟩], 0, 1, 1, 1, 1, 1, 0⟩ : IncrementalStep).height = 1 ∧
        (⟨[3], [3], [⟨0, 0, 0⟩], 0, 1, 1, 1, 1, 1, 0⟩ : IncrementalStep).depth = 1 ∧
        (⟨[3], [3], [⟨0, 0, 0⟩], 0, 1, 1, 1, 1, 1, 0⟩ : IncrementalStep).diffusionRate = 0) :=
  ⟨⟨rfl, rfl⟩,
   c8_incremental_conductivity_independent.2 ⟨⟨1, 1, 1, [3], 0, 0, 65535⟩, none⟩ rfl
     ⟨⟨1, 1, 1, [3], 0, 0, 65535⟩, some ⟨[3], [3], [⟨0, 0, 0⟩], 0, 1, 1, 1, 1, 1, 0⟩⟩
     rfl ⟨[3], [3], [⟨0, 0, 0⟩], 0, 1, 1, 1, 1, 1, 0⟩ rfl⟩

/-- Claim C9 (confirmed): while a step is active, `va_sc_field_set` is a
complete no-op — the controller (field cells, step buffers) is returned
unchanged, so no committed cell value after any later finalize changes —
and `va_sc_field_get` always reads the committed field. -/
theorem c9_set_noop_while_stepping (c : StepController) (x y z : Int) (v : Nat)
    (hstep : c.active_step.isSome) :
    va_sc_field_set (some c) x y z v = some c ∧
    va_sc_field_get (some c) x y z = field_get c.field x y z ∧
    (∀ n : Nat, (va_sc_field_set (some c) x y z v).bind (step_blockingN n)
        = step_blockingN n c) := by
  have h1 : va_sc_field_set (some c) x y z v = some c := by
    simp [va_sc_field_set, StepController.is_stepping, hstep]
  refine ⟨h1, rfl, fun n => by rw [h1]; rfl⟩

lemma run_tiles_gen : ∀ (k : Nat) (s : IncrementalStep) (b : Bool)
    (s1 : IncrementalStep), run_tiles k s = some (b, s1) →
    s1.target_generation = s.target_generation := by
  intro k
  induction k with
  | zero =>
    intro s b s1 h
    rw [run_tiles_zero] at h
    simp only [Option.some_inj, Prod.mk.injEq] at h
    rw [← h.2]
  | succ k ih =>
    intro s b s1 h
    rw [run_tiles_succ] at h
    by_cases hdone : s.total_tiles ≤ s.next_tile
    · rw [if_pos hdone] at h
      simp only [Option.some_inj, Prod.mk.injEq] at h
      rw [← h.2]
    · rw [if_neg hdone] at h
      cases hget : s.tile_queue.get? s.next_tile with
      | none => rw [hget] at h; exact absurd h (by simp)
      | some t =>
        rw [hget] at h
        rw [ih _ b s1 h]
        rfl

/-- Counterexample for C1, in two parts.  First: one fused step on the
3×2×1 field `[8, 1, 0, 0, 0, 5]` (rate 0, default conductivity) drives
the cell at index 1 below zero — the `as u32` cast wraps it to `2^32 − 1`
— so the committed sum is the initial sum 14 plus `2^32`, not the initial
sum.  Second: at diffusion rate 45 the divisor `(7i64 << 45) << 16` wraps
to `−2^61` and every mirror dither fires, so one blocking incremental
step on the 1×1×1 field `[5]` commits `[2]`: the sum drops from 5 to 2,
which conservation does not survive even modulo `2^32`. -/
theorem c1_fused_mass_counterexample :
    ((field_step_fused ⟨3, 2, 1, [8, 1, 0, 0, 0, 5], 0, 0, 65535⟩).cells.sum
        = 4294967310 ∧
      (⟨3, 2, 1, [8, 1, 0, 0, 0, 5], 0, 0, 65535⟩ : Field).cells.sum = 14) ∧
      (step_blocking ⟨⟨1, 1, 1, [5], 0, 45, 65535⟩, none⟩).map
          (fun c => c.field.cells.sum) = some 2 := by
  refine ⟨⟨?_, ?_⟩, ?_⟩
  · decide
  · decide
  · decide

/-- Claim C1 as amended: for `diffusion_rate ≤ 44` (the range where the
i64 divisor `(7 << shift) << 16` does not wrap — beyond it the negative
or zero divisor misfires the dither on every boundary mirror, or the
division panics, as the counterexample's second part shows at rate 45),
every stepper preserves the total mass modulo `2^32` — exact equality
holds only when no commit wraps, and the counterexample's first part
shows a wrap is reachable.  The statement covers the sequential and fused
steppers over any number of steps, the incremental controller driven by
`step_blocking` over any number of steps, and the incremental controller
driven by `begin_step` followed by repeated `tick` with any per-call tile
allowance `k ≥ 1`. -/
theorem c1_mass_conserved_mod_two_pow_32 :
    (∀ (f : Field) (n : Nat),
      f.cells.length = f.width * f.height * f.depth →
      f.diffusionRate ≤ 44 →
      (((field_step^[n] f).cells.sum : Nat) : ZMod MOD) = f.cells.sum ∧
      (((field_step_fused^[n] f).cells.sum : Nat) : ZMod MOD) = f.cells.sum) ∧
    (∀ (c : StepController) (n : Nat),
      c.active_step = none →
      c.field.cells.length = c.field.width * c.field.height * c.field.depth →
      c.field.diffusionRate ≤ 44 →
      ∀ c', step_blockingN n c = some c' →
        ((c'.field.cells.sum : Nat) : ZMod MOD) = c.field.cells.sum) ∧
    (∀ (c : StepController) (k : Nat),
      c.active_step = none →
      c.field.cells.length = c.field.width * c.field.height * c.field.depth →
      c.field.diffusionRate ≤ 44 →
      1 ≤ k →
      ∀ c1, begin_step c = Except.ok c1 →
        ∀ c', run_ticks k (remaining_tiles c1 + 1) c1 = some c' →
          ((c'.field.cells.sum : Nat) : ZMod MOD) = c.field.cells.sum) := by
  refine ⟨?_, ?_, ?_⟩
  · intro f n hlen _
    exact ⟨(field_step_iter n f hlen).1, (field_step_fused_iter n f hlen).1⟩
  · intro c n hidle hlen hr44 c' h
    exact (step_blockingN_props n c hidle hlen hr44 c' h).2.2.2.2.2.2
  · intro c k hidle hlen hr44 hk c1 hok c' hrt
    obtain ⟨s, hok0, _, _, _, _, _, _, _, _, _, _⟩ := begin_step_ok_props c hidle
    have hc1e : c1 = { c with active_step := some s } := by
      rw [hok0] at hok
      injection hok with e
      exact e.symm
    subst hc1e
    have hc1 : ({ c with active_step := some s } : StepController).active_step
        = some s := rfl
    have hrem : remaining_tiles { c with active_step := some s }
        = s.total_tiles - s.next_tile := rfl
    have heq := run_ticks_eq_tick k hk (s.total_tiles - s.next_tile)
      (remaining_tiles { c with active_step := some s } + 1) (by rw [hrem]; omega)
      _ s hc1 rfl
    rw [heq] at hrt
    have hsb : step_blocking c = some c' := by
      rw [step_blocking_eq c _ hok0, hrem]
      exact hrt
    exact (step_blocking_props c hidle hlen hr44 c' hsb).2.2.2.2.2.2.2.2

/-- Witness for C1's amended conservation at a concrete 2×1×1 field, two
steps of each stepper, and the concrete begun controller with `k = 1`. -/
theorem c1_mass_mod_witness :
    ((⟨2, 1, 1, [9, 7], 0, 0, 65535⟩ : Field).cells.length = 2 * 1 * 1 ∧
      (⟨2, 1, 1, [9, 7], 0, 0, 65535⟩ : Field).diffusionRate ≤ 44 ∧
      (((field_step^[2] ⟨2, 1, 1, [9, 7], 0, 0, 65535⟩).cells.sum : Nat) : ZMod MOD)
          = ((⟨2, 1, 1, [9, 7], 0, 0, 65535⟩ : Field).cells.sum : ZMod MOD) ∧
      (((field_step_fused^[2] ⟨2, 1, 1, [9, 7], 0, 0, 65535⟩).cells.sum : Nat) : ZMod MOD)
          = ((⟨2, 1, 1, [9, 7], 0, 0, 65535⟩ : Field).cells.sum : ZMod MOD)) :=
  ⟨by decide, by decide,
   (c1_mass_conserved_mod_two_pow_32.1 ⟨2, 1, 1, [9, 7], 0, 0, 65535⟩ 2 (by decide)
     (by decide)).1,
   (c1_mass_conserved_mod_two_pow_32.1 ⟨2, 1, 1, [9, 7], 0, 0, 65535⟩ 2 (by decide)
     (by decide)).2⟩

/-- Claim C5 (confirmed): from the same idle controller, driving the begun
step with repeated `tick` calls whose budget admits any fixed `k ≥ 1`
tiles per call produces exactly the same controller — bit-identical cells
and the same generation — as `step_blocking` (including agreement on the
panic case, where both are `none`). -/
theorem c5_blocking_equals_ticking (c : StepController) (k : Nat)
    (hidle : c.active_step = none) (hk : 1 ≤ k) :
    ∀ c1, begin_step c = Except.ok c1 →
      run_ticks k (remaining_tiles c1 + 1) c1 = step_blocking c := by
  intro c1 hok
  obtain ⟨s, hok0, _, _, _, _, _, _, _, _, _, _⟩ := begin_step_ok_props c hidle
  have hc1e : c1 = { c with active_step := some s } := by
    rw [hok0] at hok
    injection hok with e
    exact e.symm
  subst hc1e
  have hc1 : ({ c with active_step := some s } : StepController).active_step
      = some s := rfl
  have hrem : remaining_tiles { c with active_step := some s }
      = s.total_tiles - s.next_tile := rfl
  rw [step_blocking_eq c _ hok0, hrem]
  exact run_ticks_eq_tick k hk (s.total_tiles - s.next_tile)
    (s.total_tiles - s.next_tile + 1) (by omega) _ s hc1 rfl

/-- Witness for C5 at a concrete 2×1×1 controller with budget `k = 1`. -/
theorem c5_blocking_ticking_witness :
    ((⟨⟨2, 1, 1, [9, 0], 0, 0, 65535⟩, none⟩ : StepController).active_step = none ∧
      begin_step ⟨⟨2, 1, 1, [9, 0], 0, 0, 65535⟩, none⟩
        = Except.ok ⟨⟨2, 1, 1, [9, 0], 0, 0, 65535⟩,
            some ⟨[9, 0], [9, 0], [⟨0, 0, 0⟩], 0, 1, 1, 2, 1, 1, 0⟩⟩) ∧
      run_ticks 1
        (remaining_tiles ⟨⟨2, 1, 1, [9, 0], 0, 0, 65535⟩,
          some ⟨[9, 0], [9, 0], [⟨0, 0, 0⟩], 0, 1, 1, 2, 1, 1, 0⟩⟩ + 1)
        ⟨⟨2, 1, 1, [9, 0], 0, 0, 65535⟩,
          some ⟨[9, 0], [9, 0], [⟨0, 0, 0⟩], 0, 1, 1, 2, 1, 1, 0⟩⟩
        = step_blocking ⟨⟨2, 1, 1, [9, 0], 0, 0, 65535⟩, none⟩ :=
  ⟨⟨rfl, rfl⟩,
   c5_blocking_equals_ticking ⟨⟨2, 1, 1, [9, 0], 0, 0, 65535⟩, none⟩ 1 rfl (by decide)
     ⟨⟨2, 1, 1, [9, 0], 0, 0, 65535⟩,
       some ⟨[9, 0], [9, 0], [⟨0, 0, 0⟩], 0, 1, 1, 2, 1, 1, 0⟩⟩ rfl⟩

/-- Counterexample for C10: on a 4081×1×1 field the per-axis tile count is
256, which the `u8` cast in `begin_step` wraps to 0 — the Morton queue is
empty while `total_tiles` is 256 — so the first `tick` indexes past the
queue (a Rust panic, modelled as `none`) instead of processing a tile and
terminating. -/
theorem c10_tick_queue_panic_counterexample :
    (begin_step ⟨⟨4081, 1, 1, List.replicate 4081 0, 0, 0, 65535⟩, none⟩).toOption.map
        (fun c1 => tick c1 1)
      = some none := rfl

/-- Claim C10 as amended: provided every per-axis tile count fits in `u8`
(each dimension at most 4080, so the queue covers `total_tiles`) and
`diffusion_rate ≤ 44` (for rates 48–63 the i64 divisor
`(7 << shift) << 16` wraps to 0 and the first `compute_flow` division
panics — a failure mode outside this total model, which the rate bound
excludes together with the i64 accumulator overflow possible under the
negative wrapped divisors of rates 45–47), a `tick` call with any budget
(admitting `k ≥ 1` tiles) never panics, reports completion exactly when
the cursor passes `total_tiles` within the call, a non-completing call
advances the cursor by exactly `k` tiles (at least one), and the
`begin_step`-then-repeated-`tick` loop finalizes within `total_tiles + 1`
calls, incrementing the generation by one. -/
theorem c10_tick_terminates (c : StepController) (k : Nat)
    (hidle : c.active_step = none)
    (hw : c.field.width ≤ 4080) (hh : c.field.height ≤ 4080)
    (hd : c.field.depth ≤ 4080) (hr44 : c.field.diffusionRate ≤ 44) (hk : 1 ≤ k) :
    ∀ c1, begin_step c = Except.ok c1 → ∀ s, c1.active_step = some s →
      ((tick c1 k).isSome ∧
       ((tick c1 k).map Prod.fst = some true ↔ s.total_tiles - s.next_tile < k) ∧
       (∀ c2, tick c1 k = some (false, c2) →
          remaining_tiles c2 + k = remaining_tiles c1) ∧
       (∃ c2, run_ticks k (remaining_tiles c1 + 1) c1 = some c2 ∧
          c2.active_step = none ∧
          c2.field.generation = c.field.generation + 1)) := by
  intro c1 hok s hcs
  have hq : s.tile_queue.length = s.total_tiles :=
    begin_queue_covers c hidle hw hh hd c1 hok s hcs
  obtain ⟨s0, hok0, _, _, _, _, _, hgen0, _, _, _, _⟩ := begin_step_ok_props c hidle
  have hc1e : c1 = { c with active_step := some s0 } := by
    rw [hok0] at hok
    injection hok with e
    exact e.symm
  have hss : s = s0 := by
    rw [hc1e] at hcs
    have he : some s0 = some s := hcs
    injection he with he
    exact he.symm
  have htick := tick_of_active c1 s hcs
  have hsome : (tick c1 k).isSome := by
    rw [htick k]
    have hs := run_tiles_isSome k s hq
    cases hrt : run_tiles k s with
    | none => rw [hrt] at hs; exact absurd hs (by simp)
    | some p =>
      obtain ⟨b, s1⟩ := p
      cases b <;> rfl
  refine ⟨hsome, ⟨?_, ?_⟩, ?_, ?_⟩
  · intro htrue
    rw [htick k] at htrue
    cases hrt : run_tiles k s with
    | none => rw [hrt] at htrue; exact absurd htrue (by simp)
    | some p =>
      obtain ⟨b, s1⟩ := p
      cases b with
      | true => exact run_tiles_true_remaining k s s1 hrt
      | false => rw [hrt] at htrue; exact absurd htrue (by simp)
  · intro hlt
    obtain ⟨s1, hrt⟩ := run_tiles_complete k s hq hlt
    rw [htick k, hrt]
    rfl
  · intro c2 h2
    rw [htick k] at h2
    cases hrt : run_tiles k s with
    | none => rw [hrt] at h2; exact absurd h2 (by simp)
    | some p =>
      obtain ⟨b, s1⟩ := p
      cases b with
      | true => rw [hrt] at h2; exact absurd h2 (by simp)
      | false =>
        rw [hrt] at h2
        have hc2 : { c1 with active_step := some s1 } = c2 := by
          simp only [Option.some_inj, Prod.mk.injEq, true_and] at h2
          exact h2
        obtain ⟨hn1, hn2, _⟩ := run_tiles_false_shape k s s1 hrt
        have hge : ¬ (s.total_tiles - s.next_tile < k) := fun hcon =>
          run_tiles_not_false_of_lt k s s1 hcon hrt
        rw [← hc2]
        have hr2 : remaining_tiles { c1 with active_step := some s1 }
            = s1.total_tiles - s1.next_tile := rfl
        have hr1 : remaining_tiles c1 = s.total_tiles - s.next_tile := by
          unfold remaining_tiles
          rw [hcs]
        rw [hr2, hr1, hn1, hn2]
        omega
  · have hr1 : remaining_tiles c1 = s.total_tiles - s.next_tile := by
      unfold remaining_tiles
      rw [hcs]
    have heq := run_ticks_eq_tick k hk (s.total_tiles - s.next_tile)
      (remaining_tiles c1 + 1) (by omega) c1 s hcs rfl
    obtain ⟨s1, hrt⟩ := run_tiles_complete (s.total_tiles - s.next_tile + 1) s hq
      (by omega)
    refine ⟨finalize_step c1 s1, ?_, rfl, ?_⟩
    · rw [heq, htick (s.total_tiles - s.next_tile + 1), hrt]
      rfl
    · show s1.target_generation = c.field.generation + 1
      rw [run_tiles_gen _ s true s1 hrt, hss, hgen0]

/-- Witness for C10's amended claim at a concrete 2×1×1 controller with
budget `k = 1`. -/
theorem c10_tick_terminates_witness :
    ((⟨⟨2, 1, 1, [9, 0], 0, 0, 65535⟩, none⟩ : StepController).active_step = none ∧
      (2 : Nat) ≤ 4080 ∧ (1 : Nat) ≤ 4080 ∧ (0 : Nat) ≤ 44 ∧ (1 : Nat) ≤ 1 ∧
      begin_step ⟨⟨2, 1, 1, [9, 0], 0, 0, 65535⟩, none⟩
        = Except.ok ⟨⟨2, 1, 1, [9, 0], 0, 0, 65535⟩,
            some ⟨[9, 0], [9, 0], [⟨0, 0, 0⟩], 0, 1, 1, 2, 1, 1, 0⟩⟩) ∧
      ((tick ⟨⟨2, 1, 1, [9, 0], 0, 0, 65535⟩,
          some ⟨[9, 0], [9, 0], [⟨0, 0, 0⟩], 0, 1, 1, 2, 1, 1, 0⟩⟩ 1).isSome ∧
       ((tick ⟨⟨2, 1, 1, [9, 0], 0, 0, 65535⟩,
          some ⟨[9, 0], [9, 0], [⟨0, 0, 0⟩], 0, 1, 1, 2, 1, 1, 0⟩⟩ 1).map Prod.fst
            = some true ↔
          (⟨[9, 0], [9, 0], [⟨0, 0, 0⟩], 0, 1, 1, 2, 1, 1, 0⟩
            : IncrementalStep).total_tiles
            - (⟨[9, 0], [9, 0], [⟨0, 0, 0⟩], 0, 1, 1, 2, 1, 1, 0⟩
                : IncrementalStep).next_tile < 1) ∧
       (∀ c2, tick ⟨⟨2, 1, 1, [9, 0], 0, 0, 65535⟩,
            some ⟨[9, 0], [9, 0], [⟨0, 0, 0⟩], 0, 1, 1, 2, 1, 1, 0⟩⟩ 1
              = some (false, c2) →
          remaining_tiles c2 + 1
            = remaining_tiles ⟨⟨2, 1, 1, [9, 0], 0, 0, 65535⟩,
                some ⟨[9, 0], [9, 0], [⟨0, 0, 0⟩], 0, 1, 1, 2, 1, 1, 0⟩⟩) ∧
       (∃ c2, run_ticks 1
            (remaining_tiles ⟨⟨2, 1, 1, [9, 0], 0, 0, 65535⟩,
              some ⟨[9, 0], [9, 0], [⟨0, 0, 0⟩], 0, 1, 1, 2, 1, 1, 0⟩⟩ + 1)
            ⟨⟨2, 1, 1, [9, 0], 0, 0, 65535⟩,
              some ⟨[9, 0], [9, 0], [⟨0, 0, 0⟩], 0, 1, 1, 2, 1, 1, 0⟩⟩ = some c2 ∧
          c2.active_step = none ∧
          c2.field.generation = 0 + 1)) :=
  ⟨⟨rfl, by decide, by decide, by decide, by decide, rfl⟩,
   c10_tick_terminates ⟨⟨2, 1, 1, [9, 0], 0, 0, 65535⟩, none⟩ 1 rfl (by decide)
     (by decide) (by decide) (by decide) (by decide)
     ⟨⟨2, 1, 1, [9, 0], 0, 0, 65535⟩,
       some ⟨[9, 0], [9, 0], [⟨0, 0, 0⟩], 0, 1, 1, 2, 1, 1, 0⟩⟩ rfl
     ⟨[9, 0], [9, 0], [⟨0, 0, 0⟩], 0, 1, 1, 2, 1, 1, 0⟩ rfl⟩

/-- Witness for C9 at a concrete stepping controller. -/
theorem c9_set_noop_witness :
    (⟨⟨1, 1, 1, [3], 0, 0, 65535⟩,
        some ⟨[3], [3], [⟨0, 0, 0⟩], 0, 1, 1, 1, 1, 1, 0⟩⟩
      : StepController).active_step.isSome ∧
      va_sc_field_set (some ⟨⟨1, 1, 1, [3], 0, 0, 65535⟩,
        some ⟨[3], [3], [⟨0, 0, 0⟩], 0, 1, 1, 1, 1, 1, 0⟩⟩) 0 0 0 999
        = some ⟨⟨1, 1, 1, [3], 0, 0, 65535⟩,
            some ⟨[3], [3], [⟨0, 0, 0⟩], 0, 1, 1, 1, 1, 1, 0⟩⟩ :=
  ⟨by decide,
   (c9_set_noop_while_stepping ⟨⟨1, 1, 1, [3], 0, 0, 65535⟩,
     some ⟨[3], [3], [⟨0, 0, 0⟩], 0, 1, 1, 1, 1, 1, 0⟩⟩ 0 0 0 999 (by decide)).1⟩

end VoxelAutomata
